import Mathlib

/-!
Verification of the AssemblyLine splice-graph construction pipeline,
shallowly embedded from assemblyline/lib/assemble/transcript_graph.py and
assemblyline/lib2/transfrag.py.

Conventions of the embedding: Python half-open genomic intervals are pairs
of integers; expression scores (Python floats) are rationals; Python list
indexing and dict lookups that can raise are modelled in the Option monad
wherever a claim depends on failure behaviour.  Components of the
repository that are imported by the embedded modules but whose code is not
part of this development (the interval ClusterTree, the floating point
epsilon constant) are modelled from their specified contracts and marked
as such in their doc comments.
-/

/-- Node of the splice graph: a half-open genomic interval given as a
(start, end) pair of coordinates.  Nodes compare by coordinates, matching
both the raw tuples and the Exon objects used as graph keys in the
source. -/
abbrev Node := ℤ × ℤ

/-- Exon of a transcript.  The source attribute named end is called stop
here because end is a reserved word in Lean. -/
structure Exon where
  start : ℤ
  stop : ℤ
deriving DecidableEq, Repr

/-- Transcript record, the input object of the graph pipeline.  The
stable identifier held in the GTF attribute dictionary of the source is
modelled as the field id; the REF attribute as the boolean field is_ref. -/
structure Transcript where
  id : ℕ
  strand : ℕ
  exons : List Exon
  score : ℚ
  is_ref : Bool
deriving DecidableEq, Repr

/-- Strand constant POS_STRAND from assemblyline.lib.transcript. -/
def POS_STRAND : ℕ := 0

/-- Strand constant NEG_STRAND from assemblyline.lib.transcript. -/
def NEG_STRAND : ℕ := 1

/-- Strand constant NO_STRAND from assemblyline.lib.transcript. -/
def NO_STRAND : ℕ := 2

/-- Modelled from the spec: FLOAT_PRECISION lives in assemblyline.lib.base,
which is not among the provided sources; the spec describes it as a small
fixed epsilon used as the score-voting threshold.  It is taken here as
10 ^ (-10). -/
def FLOAT_PRECISION : ℚ := 1 / 10 ^ 10

/-- Python bisect.bisect_right on a sorted list: the insertion point after
any run of entries equal to x, which equals the number of elements that
are at most x. -/
def bisect_right (l : List ℤ) (x : ℤ) : ℕ :=
  l.countP (fun b => decide (b ≤ x))

/-- Python bisect.bisect_left on a sorted list: the insertion point before
any run of entries equal to x, which equals the number of elements that
are strictly less than x. -/
def bisect_left (l : List ℤ) (x : ℤ) : ℕ :=
  l.countP (fun b => decide (b < x))

/-- Embeds find_exon_boundaries: collect every exon start and end across
the transcripts into a set and return it as a sorted list.  The Python
sorted set is modelled as deduplication followed by an insertion sort. -/
def find_exon_boundaries (transcripts : List Transcript) : List ℤ :=
  ((transcripts.flatMap fun t => t.exons.flatMap fun e => [e.start, e.stop]).dedup).insertionSort (· ≤ ·)

/-- Embeds split_exon: partition the exon at the boundary positions that
fall strictly inside it.  Out-of-range list indexing in the source cannot
occur when the exon is non-degenerate with start at most end, which is
proved below; the getD default never surfaces there. -/
def split_exon (exon : Exon) (boundaries : List ℤ) : List Node :=
  if exon.start = exon.stop then []
  else
    let start_ind := bisect_right boundaries exon.start
    let end_ind := bisect_left boundaries exon.stop
    if start_ind = end_ind then [(exon.start, exon.stop)]
    else
      ((exon.start, boundaries.getD start_ind 0) ::
        (List.range' start_ind (end_ind - 1 - start_ind)).map
          (fun j => (boundaries.getD j 0, boundaries.getD (j + 1) 0))) ++
      [(boundaries.getD (end_ind - 1) 0, exon.stop)]

/-- Embeds split_exons: concatenation of the split pieces of every exon of
the transcript, in order. -/
def split_exons (t : Transcript) (boundaries : List ℤ) : List Node :=
  t.exons.flatMap fun e => split_exon e boundaries

/-- Spec-side description of the output of split_exon on a non-degenerate
exon: the segment from the exon start to the first interior boundary, one
segment per consecutive pair of interior boundaries, and the segment from
the last interior boundary to the exon end; with no interior boundary the
exon itself. -/
def segsFrom (a b : ℤ) : List ℤ → List Node
  | [] => [(a, b)]
  | c :: rest => (a, c) :: segsFrom c b rest

example : split_exon ⟨100, 500⟩ [100, 200, 350, 500] =
    [(100, 200), (200, 350), (350, 500)] := by decide

example : split_exon ⟨7, 7⟩ [1, 7, 9] = [] := by decide

example : split_exon ⟨3, 6⟩ [1, 2, 7] = [(3, 6)] := by decide

/-- Elements strictly above a in a weakly sorted list form the suffix that
begins at the Python bisect_right insertion point for a. -/
lemma filter_gt_eq_drop (a : ℤ) (l : List ℤ) (hs : l.Sorted (· ≤ ·)) :
    l.filter (fun x => decide (a < x)) = l.drop (l.countP (fun x => decide (x ≤ a))) := by
  induction l with
  | nil => simp
  | cons c rest ih =>
    rcases List.sorted_cons.mp hs with ⟨hc, hrest⟩
    by_cases h : c ≤ a
    · have h1 : ¬ a < c := not_lt.mpr h
      simp [List.filter_cons, List.countP_cons, h, h1, List.drop_succ_cons, ih hrest]
    · push_neg at h
      have hall : ∀ x ∈ rest, a < x := fun x hx => lt_of_lt_of_le h (hc x hx)
      have h0 : (c :: rest).countP (fun x => decide (x ≤ a)) = 0 := by
        rw [List.countP_eq_zero]
        intro x hx
        simp only [decide_eq_true_eq]
        rcases List.mem_cons.mp hx with rfl | hx'
        · exact not_le.mpr h
        · exact not_le.mpr (hall x hx')
      rw [h0, List.drop_zero, List.filter_eq_self.mpr]
      intro x hx
      simp only [decide_eq_true_eq]
      rcases List.mem_cons.mp hx with rfl | hx'
      · exact h
      · exact hall x hx'

/-- Elements strictly below b in a weakly sorted list form the prefix that
ends at the Python bisect_left insertion point for b. -/
lemma filter_lt_eq_take (b : ℤ) (l : List ℤ) (hs : l.Sorted (· ≤ ·)) :
    l.filter (fun x => decide (x < b)) = l.take (l.countP (fun x => decide (x < b))) := by
  induction l with
  | nil => simp
  | cons c rest ih =>
    rcases List.sorted_cons.mp hs with ⟨hc, hrest⟩
    by_cases h : c < b
    · simp [List.filter_cons, List.countP_cons, h, ih hrest]
    · have hall : ∀ x ∈ rest, ¬ x < b := fun x hx hlt => h (lt_of_le_of_lt (hc x hx) hlt)
      have h0 : (c :: rest).countP (fun x => decide (x < b)) = 0 := by
        rw [List.countP_eq_zero]
        intro x hx
        simp only [decide_eq_true_eq]
        rcases List.mem_cons.mp hx with rfl | hx'
        · exact h
        · exact hall x hx'
      rw [h0, List.take_zero, List.filter_eq_nil_iff.mpr]
      intro x hx
      simp only [decide_eq_true_eq]
      rcases List.mem_cons.mp hx with rfl | hx'
      · exact h
      · exact hall x hx'

/-- Unfolds segsFrom into a head segment, index-addressed middle segments
and a final segment, the shape produced by the source loop. -/
lemma segsFrom_getD (b : ℤ) :
    ∀ (ib : List ℤ) (a : ℤ), ib ≠ [] →
      ((a, ib.getD 0 0) :: (List.range (ib.length - 1)).map
          (fun k => (ib.getD k 0, ib.getD (k + 1) 0))) ++
        [(ib.getD (ib.length - 1) 0, b)] = segsFrom a b ib
  | [], _, h => absurd rfl h
  | [c], a, _ => by simp [segsFrom]
  | c :: d :: rest, a, _ => by
    have ih := segsFrom_getD b (d :: rest) c (by simp)
    rw [show segsFrom a b (c :: d :: rest) = (a, c) :: segsFrom c b (d :: rest) from rfl, ← ih]
    simp only [List.length_cons, Nat.add_sub_cancel, List.range_succ_eq_map,
      List.map_cons, List.map_map, List.getD_cons_zero, List.getD_cons_succ,
      List.cons_append]
    rfl

/-- Characterization of split_exon over a weakly sorted boundary list: it
splits a well-formed exon along exactly the boundaries falling strictly
inside the exon. -/
theorem split_exon_char (exon : Exon) (l : List ℤ) (hs : l.Sorted (· ≤ ·))
    (hab : exon.start ≤ exon.stop) :
    split_exon exon l =
      if exon.start = exon.stop then []
      else segsFrom exon.start exon.stop
        (l.filter fun x => decide (exon.start < x) && decide (x < exon.stop)) := by
  by_cases heq : exon.start = exon.stop
  · simp [split_exon, heq]
  · have hab' : exon.start < exon.stop := lt_of_le_of_ne hab heq
    rw [if_neg heq]
    set a := exon.start with ha
    set b := exon.stop with hb
    set i := l.countP (fun x => decide (x ≤ a)) with hi
    set e := l.countP (fun x => decide (x < b)) with he
    have hie : i ≤ e := by
      rw [hi, he]
      apply List.countP_mono_left
      intro x _ hx
      simp only [decide_eq_true_eq] at hx ⊢
      exact lt_of_le_of_lt hx hab'
    have hel : e ≤ l.length := by rw [he]; exact List.countP_le_length _
    have hdrop : l.filter (fun x => decide (a < x)) = l.drop i := filter_gt_eq_drop a l hs
    have hsdrop : (l.drop i).Sorted (· ≤ ·) :=
      List.Pairwise.sublist (List.drop_sublist i l) hs
    have hzero : (l.drop i).countP (fun x => decide (x ≤ a)) = 0 := by
      rw [List.countP_eq_zero]
      intro x hx
      rw [← hdrop] at hx
      have hx' := List.of_mem_filter hx
      simp only [decide_eq_true_eq] at hx' ⊢
      exact not_le.mpr hx'
    have hcount_take : (l.take i).countP (fun x => decide (x ≤ a)) = i := by
      have hsplit := List.countP_append (fun x => decide (x ≤ a)) (l.take i) (l.drop i)
      rw [List.take_append_drop] at hsplit
      omega
    have hlen_take : (l.take i).length = i := by
      rw [List.length_take]
      omega
    have htake_le : ∀ x ∈ l.take i, x ≤ a := by
      have hc := List.countP_eq_length.mp
        (show (l.take i).countP (fun x => decide (x ≤ a)) = (l.take i).length by
          rw [hcount_take, hlen_take])
      intro x hx
      simpa using hc x hx
    have hcount_drop_lt : (l.drop i).countP (fun x => decide (x < b)) = e - i := by
      have hsplit := List.countP_append (fun x => decide (x < b)) (l.take i) (l.drop i)
      rw [List.take_append_drop] at hsplit
      have htk : (l.take i).countP (fun x => decide (x < b)) = (l.take i).length := by
        rw [List.countP_eq_length]
        intro x hx
        simp only [decide_eq_true_eq]
        exact lt_of_le_of_lt (htake_le x hx) hab'
      omega
    have hib : l.filter (fun x => decide (a < x) && decide (x < b)) =
        (l.drop i).take (e - i) := by
      rw [show (fun x => decide (a < x) && decide (x < b)) =
            (fun x => decide (x < b) && decide (a < x)) from
          funext fun x => Bool.and_comm _ _]
      rw [← List.filter_filter, hdrop, filter_lt_eq_take b _ hsdrop, hcount_drop_lt]
    simp only [split_exon, bisect_right, bisect_left, if_neg heq, ← hi, ← he]
    by_cases hie' : i = e
    · rw [if_pos hie']
      have hnil : (l.drop i).take (e - i) = [] := by
        rw [hie', Nat.sub_self, List.take_zero]
      rw [hib, hnil]
      rfl
    · rw [if_neg hie']
      have hlt : i < e := lt_of_le_of_ne hie hie'
      set ib := (l.drop i).take (e - i) with hib_def
      have hlen_ib : ib.length = e - i := by
        rw [hib_def, List.length_take, List.length_drop]
        omega
      have hne : ib ≠ [] := by
        intro hnil
        rw [hnil] at hlen_ib
        simp at hlen_ib
        omega
      have hget : ∀ k, k < e - i → l.getD (i + k) 0 = ib.getD k 0 := by
        intro k hk
        have h1 : k < ib.length := by omega
        have h2 : i + k < l.length := by omega
        rw [List.getD_eq_getElem l 0 h2, List.getD_eq_getElem ib 0 h1]
        simp only [hib_def, List.getElem_take, List.getElem_drop]
      have h1 : l.getD i 0 = ib.getD 0 0 := by
        have := hget 0 (by omega)
        simpa using this
      have h3 : l.getD (e - 1) 0 = ib.getD (ib.length - 1) 0 := by
        have hk : e - i - 1 < e - i := by omega
        have hgk := hget (e - i - 1) hk
        have heq1 : i + (e - i - 1) = e - 1 := by omega
        rw [heq1] at hgk
        rw [hgk, hlen_ib]
      have h2 : (List.range' i (e - 1 - i)).map (fun j => ((l.getD j 0, l.getD (j + 1) 0) : Node)) =
          (List.range (ib.length - 1)).map (fun k => (ib.getD k 0, ib.getD (k + 1) 0)) := by
        rw [List.range'_eq_map_range, List.map_map, hlen_ib]
        have hr : e - i - 1 = e - 1 - i := by omega
        rw [hr]
        apply List.map_congr_left
        intro k hk
        have hk' : k < e - 1 - i := List.mem_range.mp hk
        have hka : k < e - i := by omega
        have hkb : k + 1 < e - i := by omega
        simp only [Function.comp_apply]
        rw [hget k hka]
        have : i + k + 1 = i + (k + 1) := by omega
        rw [this, hget (k + 1) hkb]
      rw [hib, ← segsFrom_getD b ib a hne, h1, h2, h3]

/-- C2: split_exon yields nothing for a degenerate exon; when no boundary
lies strictly inside the exon it yields the exon unchanged; otherwise it
yields the segment from the exon start to the first interior boundary,
one segment per consecutive interior boundary pair, and the segment from
the last interior boundary to the exon end.  Stated for a sorted boundary
list and a well-formed exon interval. -/
theorem C2_split_exon_segments (exon : Exon) (boundaries : List ℤ)
    (hs : boundaries.Sorted (· ≤ ·)) (hab : exon.start ≤ exon.stop) :
    split_exon exon boundaries =
      if exon.start = exon.stop then []
      else segsFrom exon.start exon.stop
        (boundaries.filter fun x => decide (exon.start < x) && decide (x < exon.stop)) :=
  split_exon_char exon boundaries hs hab

/-- Witness for C2 at the example of the claim: exon (100, 500) against
boundaries [100, 200, 350, 500] yields (100,200), (200,350), (350,500). -/
theorem C2_split_exon_segments_witness :
    ([100, 200, 350, 500] : List ℤ).Sorted (· ≤ ·) ∧
      (100 : ℤ) ≤ 500 ∧
      split_exon ⟨100, 500⟩ [100, 200, 350, 500] =
        [(100, 200), (200, 350), (350, 500)] :=
  ⟨by decide, by decide,
    (C2_split_exon_segments ⟨100, 500⟩ [100, 200, 350, 500] (by decide) (by decide)).trans
      (by decide)⟩

/-- Output of segsFrom is never empty. -/
lemma segsFrom_ne_nil (a b : ℤ) (ib : List ℤ) : segsFrom a b ib ≠ [] := by
  cases ib <;> simp [segsFrom]

/-- First segment of segsFrom starts at a. -/
lemma segsFrom_head (a b : ℤ) (ib : List ℤ) :
    ((segsFrom a b ib).headD (0, 0)).1 = a := by
  cases ib <;> simp [segsFrom]

/-- Head of segsFrom exists and starts at a. -/
lemma segsFrom_head? (b : ℤ) (ib : List ℤ) (a : ℤ) :
    ∃ y : Node, (segsFrom a b ib).head? = some y ∧ y.1 = a := by
  cases ib <;> simp [segsFrom]

/-- Last segment of segsFrom ends at b. -/
lemma segsFrom_last (b : ℤ) :
    ∀ (ib : List ℤ) (a : ℤ) (d : Node), ((segsFrom a b ib).getLastD d).2 = b
  | [], a, d => by simp [segsFrom]
  | c :: rest, a, d => by
    rw [show segsFrom a b (c :: rest) = (a, c) :: segsFrom c b rest from rfl,
      List.getLastD_cons]
    exact segsFrom_last b rest c (a, c)

/-- Consecutive segments of segsFrom are contiguous: each starts where the
previous one ends. -/
lemma segsFrom_chain (b : ℤ) :
    ∀ (ib : List ℤ) (a : ℤ), List.Chain' (fun p q : Node => p.2 = q.1) (segsFrom a b ib)
  | [], a => by simp [segsFrom]
  | c :: rest, a => by
    rw [show segsFrom a b (c :: rest) = (a, c) :: segsFrom c b rest from rfl,
      List.chain'_cons']
    refine ⟨?_, segsFrom_chain b rest c⟩
    intro y hy
    rcases segsFrom_head? b rest c with ⟨z, hz, hz1⟩
    rw [hz] at hy
    simp only [Option.mem_def, Option.some.injEq] at hy
    subst hy
    exact hz1.symm

/-- Lengths of the segsFrom segments telescope to the full interval. -/
lemma segsFrom_sum (b : ℤ) :
    ∀ (ib : List ℤ) (a : ℤ), ((segsFrom a b ib).map fun p => p.2 - p.1).sum = b - a
  | [], a => by simp [segsFrom]
  | c :: rest, a => by
    rw [show segsFrom a b (c :: rest) = (a, c) :: segsFrom c b rest from rfl]
    simp only [List.map_cons, List.sum_cons, segsFrom_sum b rest c]
    ring

/-- Every segsFrom segment is non-degenerate when the interior boundaries
are strictly sorted and lie strictly inside the interval. -/
lemma segsFrom_pos (b : ℤ) :
    ∀ (ib : List ℤ) (a : ℤ), a < b → ib.Sorted (· < ·) →
      (∀ c ∈ ib, a < c ∧ c < b) → ∀ p ∈ segsFrom a b ib, p.1 < p.2
  | [], a, hab, _, _ => by
    intro p hp
    simp only [segsFrom, List.mem_singleton] at hp
    rw [hp]
    exact hab
  | c :: rest, a, hab, hsort, hmem => by
    have hc := hmem c (by simp)
    have hsort' := (List.sorted_cons.mp hsort).2
    have hcr := (List.sorted_cons.mp hsort).1
    have ih := segsFrom_pos b rest c hc.2 hsort'
      (fun x hx => ⟨hcr x hx, (hmem x (by simp [hx])).2⟩)
    intro p hp
    rw [show segsFrom a b (c :: rest) = (a, c) :: segsFrom c b rest from rfl] at hp
    rcases List.mem_cons.mp hp with rfl | hp'
    · exact hc.1
    · exact ih p hp'

/-- Boundary lists produced by find_exon_boundaries are weakly sorted. -/
lemma find_exon_boundaries_sorted_le (ts : List Transcript) :
    (find_exon_boundaries ts).Sorted (· ≤ ·) :=
  List.sorted_insertionSort _ _

/-- Boundary lists produced by find_exon_boundaries are strictly sorted
and hence duplicate free. -/
lemma find_exon_boundaries_sorted_lt (ts : List Transcript) :
    (find_exon_boundaries ts).Sorted (· < ·) :=
  List.Sorted.lt_of_le (find_exon_boundaries_sorted_le ts)
    ((List.perm_insertionSort _ _).symm.nodup (List.nodup_dedup _))

/-- C3: splitting a non-degenerate exon of a transcript of the set against
the boundaries computed from the same set tiles the exon exactly: the
pieces are non-empty, start at the exon start, end at the exon end, are
contiguous and individually non-degenerate, and their lengths sum to the
exon length. -/
theorem C3_split_tiles_exon (ts : List Transcript) (t : Transcript) (exon : Exon)
    (ht : t ∈ ts) (he : exon ∈ t.exons) (hlt : exon.start < exon.stop) :
    split_exon exon (find_exon_boundaries ts) ≠ [] ∧
      ((split_exon exon (find_exon_boundaries ts)).headD (0, 0)).1 = exon.start ∧
      ((split_exon exon (find_exon_boundaries ts)).getLastD (0, 0)).2 = exon.stop ∧
      List.Chain' (fun p q : Node => p.2 = q.1) (split_exon exon (find_exon_boundaries ts)) ∧
      (∀ p ∈ split_exon exon (find_exon_boundaries ts), p.1 < p.2) ∧
      ((split_exon exon (find_exon_boundaries ts)).map fun p => p.2 - p.1).sum =
        exon.stop - exon.start := by
  have hchar := split_exon_char exon (find_exon_boundaries ts)
    (find_exon_boundaries_sorted_le ts) hlt.le
  rw [if_neg (ne_of_lt hlt)] at hchar
  have hib_sorted :
      ((find_exon_boundaries ts).filter fun x =>
        decide (exon.start < x) && decide (x < exon.stop)).Sorted (· < ·) :=
    List.Pairwise.filter _ (find_exon_boundaries_sorted_lt ts)
  have hib_mem : ∀ c ∈ (find_exon_boundaries ts).filter fun x =>
      decide (exon.start < x) && decide (x < exon.stop),
      exon.start < c ∧ c < exon.stop := by
    intro c hc
    have := List.of_mem_filter hc
    simp only [Bool.and_eq_true, decide_eq_true_eq] at this
    exact this
  rw [hchar]
  exact ⟨segsFrom_ne_nil _ _ _, segsFrom_head _ _ _, segsFrom_last _ _ _ _,
    segsFrom_chain _ _ _, segsFrom_pos _ _ _ hlt hib_sorted hib_mem, segsFrom_sum _ _ _⟩

/-- Witness for C3 on a concrete two-transcript set whose boundaries cut
the exon (0, 10) of the first transcript. -/
theorem C3_split_tiles_exon_witness :
    (⟨0, 0, [⟨0, 10⟩], 1, false⟩ : Transcript) ∈
        [(⟨0, 0, [⟨0, 10⟩], 1, false⟩ : Transcript), ⟨1, 1, [⟨4, 20⟩], 2, false⟩] ∧
      (⟨0, 10⟩ : Exon) ∈ (⟨0, 0, [⟨0, 10⟩], 1, false⟩ : Transcript).exons ∧
      (0 : ℤ) < 10 ∧
      split_exon ⟨0, 10⟩
          (find_exon_boundaries
            [⟨0, 0, [⟨0, 10⟩], 1, false⟩, ⟨1, 1, [⟨4, 20⟩], 2, false⟩]) ≠ [] := by
  refine ⟨by simp, by simp, by decide, ?_⟩
  exact (C3_split_tiles_exon
    [⟨0, 0, [⟨0, 10⟩], 1, false⟩, ⟨1, 1, [⟨4, 20⟩], 2, false⟩]
    ⟨0, 0, [⟨0, 10⟩], 1, false⟩ ⟨0, 10⟩ (by simp) (by simp) (by decide)).1

/-- Per-node aggregated state used during strand resolution.  The source
keeps a two-element reference-strand flag list and a three-element score
list per node; both have fixed shape and are modelled as tuples, with the
fallible Python index assignments modelled by the Option valued updates
below. -/
structure NodeData where
  ref_strands : Bool × Bool
  scores : ℚ × ℚ × ℚ
deriving DecidableEq, Repr

/-- Fresh NodeData value produced by the defaultdict factory of the
source: no reference strand observed, all three score slots zero. -/
def NodeData.fresh : NodeData := ⟨(false, false), (0, 0, 0)⟩

/-- Map from nodes to their NodeData.  The source defaultdict returns the
fresh value for unseen nodes, so the map is total. -/
abbrev NDMap := Node → NodeData

/-- Embeds the reference-strand flag assignment of the source; assigning
at a strand index outside the two-element flag list raises in Python and
returns none here. -/
def NodeData.setRef (nd : NodeData) (s : ℕ) : Option NodeData :=
  if s = 0 then some {nd with ref_strands := (true, nd.ref_strands.2)}
  else if s = 1 then some {nd with ref_strands := (nd.ref_strands.1, true)}
  else none

/-- Embeds the score accumulation of add_transcript on the three-element
score list; indexing outside it raises in Python and returns none here. -/
def NodeData.addScore (nd : NodeData) (s : ℕ) (x : ℚ) : Option NodeData :=
  if s = 0 then some {nd with scores := (nd.scores.1 + x, nd.scores.2.1, nd.scores.2.2)}
  else if s = 1 then some {nd with scores := (nd.scores.1, nd.scores.2.1 + x, nd.scores.2.2)}
  else if s = 2 then some {nd with scores := (nd.scores.1, nd.scores.2.1, nd.scores.2.2 + x)}
  else none

/-- Embeds resolve_strand: one pass over the nodes accumulating the
length-weighted score totals of both concrete strands and the
reference-flagged base-pair counts, then the two-tier vote of the
source. -/
def resolve_strand (nodes : List Node) (node_data : NDMap) : ℕ :=
  let acc := nodes.foldl
    (fun (a : (ℚ × ℚ) × (ℤ × ℤ)) n =>
      let length : ℤ := n.2 - n.1
      let nd := node_data n
      ((a.1.1 + nd.scores.1 * (length : ℚ), a.1.2 + nd.scores.2.1 * (length : ℚ)),
       (if nd.ref_strands.1 then a.2.1 + length else a.2.1,
        if nd.ref_strands.2 then a.2.2 + length else a.2.2)))
    ((0, 0), (0, 0))
  if acc.1.1 + acc.1.2 > FLOAT_PRECISION then
    if acc.1.1 ≥ acc.1.2 then POS_STRAND else NEG_STRAND
  else if acc.2.1 + acc.2.2 > 0 then
    if acc.2.1 ≥ acc.2.2 then POS_STRAND else NEG_STRAND
  else NO_STRAND

/-- Length-weighted positive-strand score total over a node set, the
quantity the spec writes as the sum of node.score[s] times node.length. -/
def total_score_pos (nodes : List Node) (node_data : NDMap) : ℚ :=
  (nodes.map fun n => (node_data n).scores.1 * ((n.2 - n.1 : ℤ) : ℚ)).sum

/-- Length-weighted negative-strand score total over a node set. -/
def total_score_neg (nodes : List Node) (node_data : NDMap) : ℚ :=
  (nodes.map fun n => (node_data n).scores.2.1 * ((n.2 - n.1 : ℤ) : ℚ)).sum

/-- Base pairs of the node set flagged by positive-strand reference
transcripts. -/
def ref_bp_pos (nodes : List Node) (node_data : NDMap) : ℤ :=
  (nodes.map fun n => if (node_data n).ref_strands.1 then n.2 - n.1 else 0).sum

/-- Base pairs of the node set flagged by negative-strand reference
transcripts. -/
def ref_bp_neg (nodes : List Node) (node_data : NDMap) : ℤ :=
  (nodes.map fun n => if (node_data n).ref_strands.2 then n.2 - n.1 else 0).sum

/-- Accumulator of the resolve_strand pass equals the four sums. -/
lemma resolve_strand_foldl (node_data : NDMap) :
    ∀ (nodes : List Node) (a : (ℚ × ℚ) × (ℤ × ℤ)),
      nodes.foldl
        (fun (a : (ℚ × ℚ) × (ℤ × ℤ)) n =>
          let length : ℤ := n.2 - n.1
          let nd := node_data n
          ((a.1.1 + nd.scores.1 * (length : ℚ), a.1.2 + nd.scores.2.1 * (length : ℚ)),
           (if nd.ref_strands.1 then a.2.1 + length else a.2.1,
            if nd.ref_strands.2 then a.2.2 + length else a.2.2))) a =
        ((a.1.1 + total_score_pos nodes node_data, a.1.2 + total_score_neg nodes node_data),
         (a.2.1 + ref_bp_pos nodes node_data, a.2.2 + ref_bp_neg nodes node_data))
  | [], a => by
    simp [total_score_pos, total_score_neg, ref_bp_pos, ref_bp_neg]
  | n :: rest, a => by
    rw [List.foldl_cons, resolve_strand_foldl node_data rest]
    simp only [total_score_pos, total_score_neg, ref_bp_pos, ref_bp_neg,
      List.map_cons, List.sum_cons]
    refine Prod.ext (Prod.ext ?_ ?_) (Prod.ext ?_ ?_) <;> simp only
    · push_cast
      ring
    · push_cast
      ring
    · by_cases h : (node_data n).ref_strands.1 <;> simp [h] <;> ring
    · by_cases h : (node_data n).ref_strands.2 <;> simp [h] <;> ring

/-- C4: resolve_strand returns the strand with the larger length-weighted
score total once the combined totals exceed the fixed epsilon, ties to
Positive; otherwise, when reference-flagged base pairs exist, the strand
with the larger reference-flagged length, ties to Positive; otherwise
Unknown.  The two conjuncts instantiate the examples of the claim: a node
with scores Positive 5.0 and Negative 1.0 resolves Positive, and a
zero-score node flagged by a Negative reference resolves Negative. -/
theorem C4_resolve_strand_vote :
    (∀ (nodes : List Node) (node_data : NDMap),
      resolve_strand nodes node_data =
        if total_score_pos nodes node_data + total_score_neg nodes node_data >
            FLOAT_PRECISION then
          if total_score_pos nodes node_data ≥ total_score_neg nodes node_data then
            POS_STRAND else NEG_STRAND
        else if ref_bp_pos nodes node_data + ref_bp_neg nodes node_data > 0 then
          if ref_bp_pos nodes node_data ≥ ref_bp_neg nodes node_data then
            POS_STRAND else NEG_STRAND
        else NO_STRAND) ∧
      resolve_strand [(10, 20)] (fun _ => ⟨(false, false), (5, 1, 0)⟩) = POS_STRAND ∧
      resolve_strand [(10, 20)] (fun _ => ⟨(false, true), (0, 0, 0)⟩) = NEG_STRAND := by
  refine ⟨?_, by norm_num [resolve_strand, FLOAT_PRECISION, POS_STRAND, NEG_STRAND],
    by norm_num [resolve_strand, FLOAT_PRECISION, POS_STRAND, NEG_STRAND, NO_STRAND]⟩
  intro nodes node_data
  unfold resolve_strand
  rw [resolve_strand_foldl node_data nodes ((0, 0), (0, 0))]
  simp only [zero_add]

/-- Directed splice graph of create_directed_graph: node list kept in
first-insertion order, per-node length and accumulated score attributes,
edge list in insertion order, and the boundary list stored on the graph
object. -/
structure DiGraph where
  nodes : List Node
  node_length : Node → ℤ
  node_score : Node → ℚ
  edges : List (Node × Node)
  boundaries : List ℤ

/-- Embeds add_node_directed: on first sight insert the node with its
fixed length and a zero score, then on every visit (including the first)
add the transcript score to the accumulated node score. -/
def add_node_directed (G : DiGraph) (n : Node) (score : ℚ) : DiGraph :=
  let G1 := if n ∈ G.nodes then G else
    { G with nodes := G.nodes ++ [n],
             node_length := Function.update G.node_length n (n.2 - n.1),
             node_score := Function.update G.node_score n 0 }
  { G1 with node_score := Function.update G1.node_score n (G1.node_score n + score) }

/-- Embeds G.add_edge of the source graph library: adding an existing
edge is a no-op. -/
def DiGraph.add_edge (G : DiGraph) (u v : Node) : DiGraph :=
  if (u, v) ∈ G.edges then G else { G with edges := G.edges ++ [(u, v)] }

/-- Per-transcript body of the create_directed_graph loop: split the
exons, reverse the node sequence on the negative strand, then walk the
sequence adding nodes and consecutive edges.  Taking the first node of an
empty sequence raises in Python and returns none here. -/
def add_transcript_to_graph (strand : ℕ) (boundaries : List ℤ) (G : DiGraph)
    (t : Transcript) : Option DiGraph :=
  match (if strand = NEG_STRAND then (split_exons t boundaries).reverse
         else split_exons t boundaries) with
  | [] => none
  | u :: rest =>
    some ((rest.foldl (fun (acc : DiGraph × Node) v =>
        ((add_node_directed acc.1 v t.score).add_edge acc.2 v, v))
      (add_node_directed G u t.score, u)).1)

/-- Embeds create_directed_graph: build the strand-specific graph over
the boundaries of exactly this transcript list and store that boundary
list on the finished graph. -/
def create_directed_graph (strand : ℕ) (transcripts : List Transcript) : Option DiGraph :=
  (transcripts.foldlM (add_transcript_to_graph strand (find_exon_boundaries transcripts))
    ⟨[], fun _ => 0, fun _ => 0, [], []⟩).map
    fun G => { G with boundaries := find_exon_boundaries transcripts }

/-- Total accumulated score over the nodes of the graph. -/
def graphScore (G : DiGraph) : ℚ :=
  (G.nodes.map G.node_score).sum

/-- Updating a function at a member of a duplicate-free list changes the
sum over the list by the difference at that member. -/
lemma sum_map_update_mem {l : List Node} {f : Node → ℚ} {n : Node} {v : ℚ}
    (hnd : l.Nodup) (hm : n ∈ l) :
    (l.map (Function.update f n v)).sum = (l.map f).sum - f n + v := by
  induction l with
  | nil => cases hm
  | cons m rest ih =>
    rcases List.nodup_cons.mp hnd with ⟨hmr, hrest⟩
    rcases List.mem_cons.mp hm with rfl | hm'
    · rw [List.map_cons, List.map_cons, List.sum_cons, List.sum_cons,
        Function.update_same]
      have hmap : rest.map (Function.update f n v) = rest.map f := by
        apply List.map_congr_left
        intro x hx
        apply Function.update_noteq
        intro he
        subst he
        exact hmr hx
      rw [hmap]
      ring
    · have hne : m ≠ n := fun he => hmr (he ▸ hm')
      rw [List.map_cons, List.map_cons, List.sum_cons, List.sum_cons,
        Function.update_noteq hne, ih hrest hm']
      ring

/-- Updating a function outside a list leaves the sum over the list
unchanged. -/
lemma sum_map_update_not_mem {l : List Node} {f : Node → ℚ} {n : Node} {v : ℚ}
    (hm : n ∉ l) :
    (l.map (Function.update f n v)).sum = (l.map f).sum := by
  have hmap : l.map (Function.update f n v) = l.map f := by
    apply List.map_congr_left
    intro x hx
    apply Function.update_noteq
    intro he
    subst he
    exact hm hx
  rw [hmap]

/-- Nodes of the graph stay duplicate free under add_node_directed. -/
lemma add_node_directed_nodup (G : DiGraph) (n : Node) (s : ℚ)
    (h : G.nodes.Nodup) : (add_node_directed G n s).nodes.Nodup := by
  unfold add_node_directed
  by_cases hm : n ∈ G.nodes <;> simp [hm, List.nodup_append, h]

/-- Each add_node_directed call adds exactly the transcript score to the
total node score of the graph, whether the node is new or revisited. -/
lemma add_node_directed_score (G : DiGraph) (n : Node) (s : ℚ)
    (h : G.nodes.Nodup) :
    graphScore (add_node_directed G n s) = graphScore G + s := by
  unfold add_node_directed graphScore
  by_cases hm : n ∈ G.nodes
  · simp only [if_pos hm]
    rw [sum_map_update_mem h hm]
    ring
  · simp only [if_neg hm]
    rw [List.map_append, List.sum_append, List.map_cons, List.map_nil,
      List.sum_cons, List.sum_nil, Function.update_same]
    have hrest : G.nodes.map (Function.update (Function.update G.node_score n 0) n
        (0 + s)) = G.nodes.map G.node_score := by
      apply List.map_congr_left
      intro x hx
      have hxn : x ≠ n := fun he => hm (he ▸ hx)
      rw [Function.update_noteq hxn, Function.update_noteq hxn]
    rw [hrest, Function.update_same]
    ring

/-- Edge insertion changes neither the node list nor the score map. -/
lemma add_edge_nodes (G : DiGraph) (u v : Node) :
    (G.add_edge u v).nodes = G.nodes ∧ (G.add_edge u v).node_score = G.node_score := by
  unfold DiGraph.add_edge
  split <;> exact ⟨rfl, rfl⟩

/-- Walking the tail of a node sequence adds the transcript score once
per node and keeps the node list duplicate free. -/
lemma chain_fold_score (s : ℚ) :
    ∀ (rest : List Node) (G : DiGraph) (u : Node), G.nodes.Nodup →
      ((rest.foldl (fun (acc : DiGraph × Node) v =>
          ((add_node_directed acc.1 v s).add_edge acc.2 v, v)) (G, u)).1).nodes.Nodup ∧
      graphScore ((rest.foldl (fun (acc : DiGraph × Node) v =>
          ((add_node_directed acc.1 v s).add_edge acc.2 v, v)) (G, u)).1) =
        graphScore G + s * rest.length
  | [], G, u, h => by
    refine ⟨h, ?_⟩
    simp
  | v :: rest, G, u, h => by
    rw [List.foldl_cons]
    have hnodes := add_edge_nodes (add_node_directed G v s) u v
    have hnd1 : ((add_node_directed G v s).add_edge u v).nodes.Nodup := by
      rw [hnodes.1]
      exact add_node_directed_nodup G v s h
    have ih := chain_fold_score s rest ((add_node_directed G v s).add_edge u v) v hnd1
    refine ⟨ih.1, ?_⟩
    rw [ih.2]
    have hge : graphScore ((add_node_directed G v s).add_edge u v) =
        graphScore (add_node_directed G v s) := by
      unfold graphScore
      rw [hnodes.1, hnodes.2]
    rw [hge, add_node_directed_score G v s h, List.length_cons]
    push_cast
    ring

/-- split_exon output is nonempty on a non-degenerate exon. -/
lemma split_exon_ne_nil (e : Exon) (b : List ℤ) (h : e.start ≠ e.stop) :
    split_exon e b ≠ [] := by
  unfold split_exon
  rw [if_neg h]
  by_cases hc : bisect_right b e.start = bisect_left b e.stop <;> simp [hc]

/-- Transcripts with a non-degenerate exon keep a nonempty node sequence
after splitting. -/
lemma split_exons_ne_nil (t : Transcript) (b : List ℤ)
    (h : ∃ e ∈ t.exons, e.start < e.stop) : split_exons t b ≠ [] := by
  rcases h with ⟨e, he, hlt⟩
  rcases List.exists_mem_of_ne_nil _ (split_exon_ne_nil e b (ne_of_lt hlt)) with ⟨n, hn⟩
  exact List.ne_nil_of_mem (List.mem_flatMap.mpr ⟨e, he, hn⟩)

/-- One loop iteration of create_directed_graph adds the transcript score
once per node of the transcript split sequence and preserves the node
list invariant. -/
lemma add_transcript_to_graph_score (strand : ℕ) (boundaries : List ℤ)
    (G : DiGraph) (t : Transcript) (hnd : G.nodes.Nodup) :
    ∀ G', add_transcript_to_graph strand boundaries G t = some G' →
      G'.nodes.Nodup ∧
      graphScore G' = graphScore G +
        t.score * ((split_exons t boundaries).length : ℚ) := by
  intro G' h
  unfold add_transcript_to_graph at h
  have hlen : (if strand = NEG_STRAND then (split_exons t boundaries).reverse
      else split_exons t boundaries).length = (split_exons t boundaries).length := by
    split <;> simp
  cases hcase : (if strand = NEG_STRAND then (split_exons t boundaries).reverse
      else split_exons t boundaries) with
  | nil =>
    rw [hcase] at h
    exact Option.noConfusion h
  | cons u rest =>
    rw [hcase] at h
    simp only [Option.some.injEq] at h
    subst h
    have hstep := chain_fold_score t.score rest (add_node_directed G u t.score) u
      (add_node_directed_nodup G u t.score hnd)
    refine ⟨hstep.1, ?_⟩
    rw [hstep.2, add_node_directed_score G u t.score hnd]
    rw [hcase, List.length_cons] at hlen
    rw [← hlen]
    push_cast
    ring

/-- Folding the whole transcript list accumulates score times visit count
for every transcript. -/
lemma create_fold_score (strand : ℕ) (boundaries : List ℤ) :
    ∀ (ts : List Transcript) (G : DiGraph), G.nodes.Nodup →
      ∀ G', ts.foldlM (add_transcript_to_graph strand boundaries) G = some G' →
        G'.nodes.Nodup ∧
        graphScore G' = graphScore G +
          (ts.map fun t => t.score * ((split_exons t boundaries).length : ℚ)).sum
  | [], G, hnd, G', h => by
    simp only [List.foldlM_nil] at h
    cases h
    exact ⟨hnd, by simp⟩
  | t :: ts, G, hnd, G', h => by
    rw [List.foldlM_cons] at h
    cases hstep : add_transcript_to_graph strand boundaries G t with
    | none =>
      rw [hstep] at h
      simp at h
    | some G1 =>
      rw [hstep] at h
      have h1 := add_transcript_to_graph_score strand boundaries G t hnd G1 hstep
      have h2 := create_fold_score strand boundaries ts G1 h1.1 G' h
      refine ⟨h2.1, ?_⟩
      rw [h2.2, h1.2, List.map_cons, List.sum_cons]
      ring

/-- The create_directed_graph fold succeeds as soon as every transcript
splits to a nonempty node sequence. -/
lemma create_fold_some (strand : ℕ) (boundaries : List ℤ) :
    ∀ (ts : List Transcript) (G : DiGraph),
      (∀ t ∈ ts, split_exons t boundaries ≠ []) →
      ∃ G', ts.foldlM (add_transcript_to_graph strand boundaries) G = some G'
  | [], G, _ => ⟨G, by simp⟩
  | t :: ts, G, h => by
    have hne : split_exons t boundaries ≠ [] := h t (by simp)
    have hstep : ∃ G1, add_transcript_to_graph strand boundaries G t = some G1 := by
      unfold add_transcript_to_graph
      have hnn : (if strand = NEG_STRAND then (split_exons t boundaries).reverse
          else split_exons t boundaries) ≠ [] := by
        split
        · simpa using hne
        · exact hne
      cases hcase : (if strand = NEG_STRAND then (split_exons t boundaries).reverse
          else split_exons t boundaries) with
      | nil => exact absurd hcase hnn
      | cons u rest =>
        exact ⟨_, rfl⟩
    rcases hstep with ⟨G1, hG1⟩
    rcases create_fold_some strand boundaries ts G1
      (fun x hx => h x (by simp [hx])) with ⟨G', hG'⟩
    refine ⟨G', ?_⟩
    rw [List.foldlM_cons, hG1]
    simpa using hG'

/-- C5: with no trimming applied, the total node score of the graph built
by create_directed_graph over a strand bucket equals the sum over bucket
transcripts of the transcript score times the length of its split node
sequence, each node receiving the score on every visit including the
first. -/
theorem C5_score_conservation (strand : ℕ) (ts : List Transcript)
    (h : ∀ t ∈ ts, ∃ e ∈ t.exons, e.start < e.stop) :
    ∃ G, create_directed_graph strand ts = some G ∧
      (G.nodes.map G.node_score).sum =
        (ts.map fun t => t.score *
          ((split_exons t (find_exon_boundaries ts)).length : ℚ)).sum := by
  have hne : ∀ t ∈ ts, split_exons t (find_exon_boundaries ts) ≠ [] :=
    fun t ht => split_exons_ne_nil t _ (h t ht)
  rcases create_fold_some strand (find_exon_boundaries ts) ts
    ⟨[], fun _ => 0, fun _ => 0, [], []⟩ hne with ⟨G0, hG0⟩
  have hsc := create_fold_score strand (find_exon_boundaries ts) ts
    ⟨[], fun _ => 0, fun _ => 0, [], []⟩ (by simp) G0 hG0
  refine ⟨{G0 with boundaries := find_exon_boundaries ts}, ?_, ?_⟩
  · unfold create_directed_graph
    rw [hG0]
    rfl
  · have hz : graphScore G0 =
        (ts.map fun t => t.score *
          ((split_exons t (find_exon_boundaries ts)).length : ℚ)).sum := by
      have := hsc.2
      unfold graphScore at this
      simpa using this
    unfold graphScore at hz
    exact hz

/-- C9: create_directed_graph accesses the first element of each split
node sequence; the access is in bounds whenever every input transcript
keeps at least one non-degenerate exon, and fails on a transcript whose
only exon is degenerate. -/
theorem C9_first_node_access (strand : ℕ) (ts : List Transcript) :
    ((∀ t ∈ ts, ∃ e ∈ t.exons, e.start < e.stop) →
      (create_directed_graph strand ts).isSome) ∧
      create_directed_graph POS_STRAND [⟨0, 0, [⟨5, 5⟩], 1, false⟩] = none := by
  constructor
  · intro h
    have hne : ∀ t ∈ ts, split_exons t (find_exon_boundaries ts) ≠ [] :=
      fun t ht => split_exons_ne_nil t _ (h t ht)
    rcases create_fold_some strand (find_exon_boundaries ts) ts
      ⟨[], fun _ => 0, fun _ => 0, [], []⟩ hne with ⟨G0, hG0⟩
    unfold create_directed_graph
    rw [hG0]
    rfl
  · rfl

/-- Witness for C9 on a transcript with one non-degenerate exon. -/
theorem C9_first_node_access_witness :
    (create_directed_graph POS_STRAND [⟨0, 0, [⟨0, 10⟩], 1, false⟩]).isSome :=
  (C9_first_node_access POS_STRAND [⟨0, 0, [⟨0, 10⟩], 1, false⟩]).1 (by decide)

/-- Witness for C5 on a two-transcript bucket. -/
theorem C5_score_conservation_witness :
    (∀ t ∈ [(⟨0, 0, [⟨0, 10⟩], 2, false⟩ : Transcript), ⟨1, 0, [⟨4, 20⟩], 3, false⟩],
      ∃ e ∈ t.exons, e.start < e.stop) ∧
    ∃ G, create_directed_graph 0
        [(⟨0, 0, [⟨0, 10⟩], 2, false⟩ : Transcript), ⟨1, 0, [⟨4, 20⟩], 3, false⟩] = some G ∧
      (G.nodes.map G.node_score).sum =
        ([(⟨0, 0, [⟨0, 10⟩], 2, false⟩ : Transcript), ⟨1, 0, [⟨4, 20⟩], 3, false⟩].map
          fun t => t.score * ((split_exons t (find_exon_boundaries
            [(⟨0, 0, [⟨0, 10⟩], 2, false⟩ : Transcript), ⟨1, 0, [⟨4, 20⟩], 3, false⟩])).length : ℚ)).sum :=
  ⟨by decide, C5_score_conservation 0
    [⟨0, 0, [⟨0, 10⟩], 2, false⟩, ⟨1, 0, [⟨4, 20⟩], 3, false⟩] (by decide)⟩

/-- Partial-path accumulator of a TranscriptGraph: the defaultdict mapping
path tuples to aggregated scores, modelled as an insertion-ordered
association list. -/
abbrev PPaths := List (List Node × ℚ)

/-- Aggregated score stored for a path tuple; zero when the tuple has no
entry, matching the zero-initialized defaultdict. -/
def lookupScore (pp : PPaths) (key : List Node) : ℚ :=
  ((pp.find? fun e => decide (e.1 = key)).map Prod.snd).getD 0

/-- Embeds tg.partial_paths[tuple] += t.score on the defaultdict: bump
the entry when present, otherwise create it at zero and add the score. -/
def bump (pp : PPaths) (key : List Node) (x : ℚ) : PPaths :=
  if pp.any fun e => decide (e.1 = key) then
    pp.map fun e => if e.1 = key then (e.1, e.2 + x) else e
  else pp ++ [(key, 0 + x)]

/-- Embeds the Python sorted call on the collapsed nodes of a component:
ascending genomic start for the positive strand, descending for the
negative strand. -/
def sortPath (strand : ℕ) (ns : List Node) : List Node :=
  if strand = NEG_STRAND then ns.insertionSort (fun a b => b.1 ≤ a.1)
  else ns.insertionSort (fun a b => a.1 ≤ b.1)

/-- Collapsed representatives of the surviving split nodes of a
transcript: split against the pre-trim boundaries, drop trimmed nodes,
map through the chain map; from the loop body of create_transcript_graphs. -/
def surviving_collapsed (boundaries : List ℤ) (trim_nodes : List Node)
    (node_chain_map : Node → Node) (t : Transcript) : List Node :=
  ((split_exons t boundaries).filter fun n => decide (n ∉ trim_nodes)).map node_chain_map

/-- Component indexes touched by the surviving collapsed nodes of a
transcript, in first-appearance order; the key set of the per-transcript
subgraph_node_map dictionary. -/
def transcript_subgraphs (node_subgraph_map : Node → ℕ) (surv : List Node) : List ℕ :=
  (surv.map node_subgraph_map).dedup

/-- Path tuple contributed by a transcript to one component: the set of
its surviving collapsed nodes in that component, sorted into
transcription order. -/
def transcript_path (strand : ℕ) (node_subgraph_map : Node → ℕ) (surv : List Node)
    (sid : ℕ) : List Node :=
  sortPath strand ((surv.filter fun cn => decide (node_subgraph_map cn = sid)).dedup)

/-- Embeds the per-transcript body of the partial-path population loop of
create_transcript_graphs: bucket the surviving collapsed nodes by
component and add the full transcript score to each touched component at
the sorted path tuple.  The arbitrary dictionary iteration order of the
source is modelled as first-appearance order, which the accumulator
contents do not depend on. -/
def process_transcript (strand : ℕ) (boundaries : List ℤ) (trim_nodes : List Node)
    (node_chain_map : Node → Node) (node_subgraph_map : Node → ℕ)
    (accums : ℕ → PPaths) (t : Transcript) : ℕ → PPaths :=
  (transcript_subgraphs node_subgraph_map
      (surviving_collapsed boundaries trim_nodes node_chain_map t)).foldl
    (fun acc sid => Function.update acc sid
      (bump (acc sid)
        (transcript_path strand node_subgraph_map
          (surviving_collapsed boundaries trim_nodes node_chain_map t) sid)
        t.score))
    accums

/-- Bumping a key adds exactly the score to the looked-up value of that
key, creating it from the zero default when absent. -/
lemma bump_lookup_same (pp : PPaths) (key : List Node) (x : ℚ) :
    lookupScore (bump pp key x) key = lookupScore pp key + x := by
  unfold bump
  by_cases hany : pp.any fun e => decide (e.1 = key)
  · rw [if_pos hany]
    induction pp with
    | nil => simp at hany
    | cons e rest ih =>
      by_cases he : e.1 = key
      · unfold lookupScore
        simp [List.find?_cons, he]
      · have hrest : rest.any fun e => decide (e.1 = key) := by
          rcases List.any_eq_true.mp hany with ⟨y, hy, hpy⟩
          rcases List.mem_cons.mp hy with rfl | hy'
          · simp at hpy
            exact absurd hpy he
          · exact List.any_eq_true.mpr ⟨y, hy', hpy⟩
        unfold lookupScore
        simp only [List.map_cons, List.find?_cons, he, if_neg he, decide_eq_true_eq]
        have := ih hrest
        unfold lookupScore at this
        simpa [he] using this
  · rw [if_neg hany]
    have hnone : (pp.find? fun e => decide (e.1 = key)) = none := by
      rw [List.find?_eq_none]
      intro e he
      simp only [decide_eq_true_eq]
      intro heq
      exact hany (List.any_eq_true.mpr ⟨e, he, by simp [heq]⟩)
    unfold lookupScore
    rw [List.find?_append, hnone]
    simp

/-- Bumping a key leaves the looked-up value of every other key
unchanged. -/
lemma bump_lookup_other (pp : PPaths) (key k : List Node) (x : ℚ) (hk : k ≠ key) :
    lookupScore (bump pp key x) k = lookupScore pp k := by
  unfold bump
  by_cases hany : pp.any fun e => decide (e.1 = key)
  · rw [if_pos hany]
    unfold lookupScore
    rw [List.find?_map]
    have hpred : ((fun e : List Node × ℚ => decide (e.1 = k)) ∘
        fun e : List Node × ℚ => if e.1 = key then (e.1, e.2 + x) else e) =
        fun e : List Node × ℚ => decide (e.1 = k) := by
      funext e
      by_cases h : e.1 = key <;> simp [h]
    rw [hpred]
    cases hfind : pp.find? fun e : List Node × ℚ => decide (e.1 = k) with
    | none => rfl
    | some e0 =>
      have hp := List.find?_some hfind
      simp only [decide_eq_true_eq] at hp
      have he0 : ¬ e0.1 = key := fun h => hk (hp.symm.trans h)
      simp [he0]
  · rw [if_neg hany]
    unfold lookupScore
    rw [List.find?_append]
    have hlast : ([((key, 0 + x) : List Node × ℚ)].find? fun e => decide (e.1 = k)) = none := by
      simp only [List.find?_cons, List.find?_nil]
      have hdk : (decide (((key, 0 + x) : List Node × ℚ).1 = k)) = false := by
        simp only [decide_eq_false_iff_not]
        exact fun h => hk h.symm
      rw [hdk]
    rw [hlast, Option.or_none]

/-- Folding pointwise updates over distinct keys applies each update once
to the initial map value and leaves every other key untouched. -/
lemma foldl_update_apply {β : Type} (g : ℕ → β → β) :
    ∀ (sids : List ℕ) (acc : ℕ → β), sids.Nodup →
      (∀ sid, sid ∉ sids →
        (sids.foldl (fun a s => Function.update a s (g s (a s))) acc) sid = acc sid) ∧
      (∀ sid ∈ sids,
        (sids.foldl (fun a s => Function.update a s (g s (a s))) acc) sid = g sid (acc sid))
  | [], acc, _ => ⟨fun _ _ => rfl, fun sid h => absurd h (List.not_mem_nil sid)⟩
  | s :: rest, acc, hnd => by
    rcases List.nodup_cons.mp hnd with ⟨hs, hrest⟩
    have ih := foldl_update_apply g rest (Function.update acc s (g s (acc s))) hrest
    rw [List.foldl_cons]
    constructor
    · intro sid hsid
      have h1 : sid ∉ rest := fun h => hsid (List.mem_cons_of_mem s h)
      have h2 : sid ≠ s := fun h => hsid (h ▸ List.mem_cons_self s rest)
      rw [ih.1 sid h1, Function.update_noteq h2]
    · intro sid hsid
      rcases List.mem_cons.mp hsid with rfl | hsid'
      · rw [ih.1 sid hs, Function.update_same]
      · have hne : sid ≠ s := fun h => hs (h ▸ hsid')
        rw [ih.2 sid hsid', Function.update_noteq hne]

/-- C6: each transcript contributes exactly one path tuple per component
touched by its surviving collapsed nodes; the contribution adds the full
transcript score to the accumulator entry of that component at that exact
path tuple, creating the entry at zero when new, and changes nothing
else, so a transcript straddling several components adds its whole score
once per component. -/
theorem C6_path_contributions (strand : ℕ) (boundaries : List ℤ) (trim_nodes : List Node)
    (node_chain_map : Node → Node) (node_subgraph_map : Node → ℕ)
    (accums : ℕ → PPaths) (t : Transcript) :
    (∀ sid, sid ∉ transcript_subgraphs node_subgraph_map
        (surviving_collapsed boundaries trim_nodes node_chain_map t) →
      process_transcript strand boundaries trim_nodes node_chain_map node_subgraph_map
        accums t sid = accums sid) ∧
    ∀ sid ∈ transcript_subgraphs node_subgraph_map
        (surviving_collapsed boundaries trim_nodes node_chain_map t),
      process_transcript strand boundaries trim_nodes node_chain_map node_subgraph_map
          accums t sid =
        bump (accums sid)
          (transcript_path strand node_subgraph_map
            (surviving_collapsed boundaries trim_nodes node_chain_map t) sid) t.score ∧
      lookupScore
          (process_transcript strand boundaries trim_nodes node_chain_map node_subgraph_map
            accums t sid)
          (transcript_path strand node_subgraph_map
            (surviving_collapsed boundaries trim_nodes node_chain_map t) sid) =
        lookupScore (accums sid)
          (transcript_path strand node_subgraph_map
            (surviving_collapsed boundaries trim_nodes node_chain_map t) sid) + t.score ∧
      ∀ k, k ≠ transcript_path strand node_subgraph_map
          (surviving_collapsed boundaries trim_nodes node_chain_map t) sid →
        lookupScore
            (process_transcript strand boundaries trim_nodes node_chain_map node_subgraph_map
              accums t sid) k =
          lookupScore (accums sid) k := by
  have hnd : (transcript_subgraphs node_subgraph_map
      (surviving_collapsed boundaries trim_nodes node_chain_map t)).Nodup :=
    List.nodup_dedup _
  have hfold :
      (∀ sid, sid ∉ transcript_subgraphs node_subgraph_map
          (surviving_collapsed boundaries trim_nodes node_chain_map t) →
        process_transcript strand boundaries trim_nodes node_chain_map node_subgraph_map
          accums t sid = accums sid) ∧
      (∀ sid ∈ transcript_subgraphs node_subgraph_map
          (surviving_collapsed boundaries trim_nodes node_chain_map t),
        process_transcript strand boundaries trim_nodes node_chain_map node_subgraph_map
            accums t sid =
          bump (accums sid)
            (transcript_path strand node_subgraph_map
              (surviving_collapsed boundaries trim_nodes node_chain_map t) sid) t.score) :=
    foldl_update_apply
      (fun sid pp => bump pp
        (transcript_path strand node_subgraph_map
          (surviving_collapsed boundaries trim_nodes node_chain_map t) sid) t.score)
      (transcript_subgraphs node_subgraph_map
        (surviving_collapsed boundaries trim_nodes node_chain_map t)) accums hnd
  refine ⟨hfold.1, fun sid hsid => ⟨hfold.2 sid hsid, ?_, ?_⟩⟩
  · rw [hfold.2 sid hsid, bump_lookup_same]
  · intro k hkne
    rw [hfold.2 sid hsid, bump_lookup_other _ _ _ _ hkne]

/-- Witness for C6: a transcript whose surviving nodes all fall in
component 0 adds its full score to that component at its path tuple. -/
theorem C6_path_contributions_witness :
    (0 : ℕ) ∈ transcript_subgraphs (fun _ => 0)
        (surviving_collapsed [0, 5, 10] [] id ⟨0, 0, [⟨0, 10⟩], 1, false⟩) ∧
    lookupScore
        (process_transcript 0 [0, 5, 10] [] id (fun _ => 0) (fun _ => [])
          ⟨0, 0, [⟨0, 10⟩], 1, false⟩ 0)
        (transcript_path 0 (fun _ => 0)
          (surviving_collapsed [0, 5, 10] [] id ⟨0, 0, [⟨0, 10⟩], 1, false⟩) 0) =
      lookupScore ((fun _ => ([] : PPaths)) 0)
        (transcript_path 0 (fun _ => 0)
          (surviving_collapsed [0, 5, 10] [] id ⟨0, 0, [⟨0, 10⟩], 1, false⟩) 0) +
        (⟨0, 0, [⟨0, 10⟩], 1, false⟩ : Transcript).score :=
  ⟨by decide,
    ((C6_path_contributions 0 [0, 5, 10] [] id (fun _ => 0) (fun _ => [])
      ⟨0, 0, [⟨0, 10⟩], 1, false⟩).2 0 (by decide)).2.1⟩

/-- GTF feature record as consumed by Transfrag.parse_gtf.  Textual
parsing (GTF.Feature.from_str) and the attribute dictionary live in the
gtf module, which is not among the provided sources; per the data model
each feature carries its transcript identifier, REF flag, sample and
expression attributes directly. -/
structure GTFFeature where
  seqid : ℕ
  feature : String
  start : ℤ
  stop : ℤ
  strand : ℕ
  t_id : ℕ
  sample_id : ℕ
  expr : ℚ
  is_ref : Bool
deriving DecidableEq, Repr, Inhabited

/-- Transfrag record of assemblyline.lib2.transfrag.  The source field
named _id is called tid here. -/
structure Transfrag where
  chrom : ℕ
  strand : ℕ
  tid : ℕ
  sample_id : ℕ
  expr : ℚ
  is_ref : Bool
  exons : List (ℤ × ℤ)
deriving DecidableEq, Repr

/-- Embeds Transfrag.from_gtf: a Transfrag built from a transcript
feature, with an empty exon list. -/
def Transfrag.from_gtf (f : GTFFeature) : Transfrag :=
  ⟨f.seqid, f.strand, f.t_id, f.sample_id, f.expr, f.is_ref, []⟩

/-- Key list of the ordered transcript dictionary. -/
def keys (d : List (ℕ × Transfrag)) : List ℕ :=
  d.map Prod.fst

/-- Embeds the in-place t.exons.append of the exon branch: extend the
exon list of the entry holding the given transcript identifier. -/
def upd_exons (d : List (ℕ × Transfrag)) (tid : ℕ) (e : ℤ × ℤ) : List (ℕ × Transfrag) :=
  d.map fun p => if p.1 = tid then (p.1, { p.2 with exons := p.2.exons ++ [e] }) else p

/-- One Transfrag.parse_gtf loop iteration: skip reference features when
ignore_ref is set; a transcript feature with a known identifier or an
exon feature with an unknown identifier aborts with a GTFError; other
feature types are ignored. -/
def parse_gtf_step (ignore_ref : Bool) (d : List (ℕ × Transfrag)) (f : GTFFeature) :
    Except String (List (ℕ × Transfrag)) :=
  if f.is_ref && ignore_ref then .ok d
  else if f.feature = "transcript" then
    if d.any fun p => decide (p.1 = f.t_id) then
      .error "Transcript duplicate detected"
    else .ok (d ++ [(f.t_id, Transfrag.from_gtf f)])
  else if f.feature = "exon" then
    if d.any fun p => decide (p.1 = f.t_id) then
      .ok (upd_exons d f.t_id (f.start, f.stop))
    else .error "Transcript exon feature appeared in gtf file prior to transcript feature"
  else .ok d

/-- Embeds Transfrag.parse_gtf: fold the feature lines into the ordered
transcript dictionary, aborting at the first malformed feature. -/
def parse_gtf (ignore_ref : Bool) (gtf_lines : List GTFFeature) :
    Except String (List (ℕ × Transfrag)) :=
  gtf_lines.foldlM (parse_gtf_step ignore_ref) []

/-- Transcript identifiers declared by the processed (non-skipped)
transcript features of a line list, in order. -/
def declared_in (ignore_ref : Bool) (fs : List GTFFeature) : List ℕ :=
  (fs.filter fun g => decide (g.feature = "transcript") && !(g.is_ref && ignore_ref)).map
    GTFFeature.t_id

/-- Feature i of the list is malformed relative to the identifiers K
declared before the list plus those declared earlier in the list: it is
processed, and it either redeclares a known transcript identifier or
references an unknown one from an exon. -/
def bad_wrt (ignore_ref : Bool) (K : List ℕ) (fs : List GTFFeature) (i : ℕ) : Prop :=
  i < fs.length ∧
  ((fs.getD i default).is_ref && ignore_ref) = false ∧
  (((fs.getD i default).feature = "transcript" ∧
      (fs.getD i default).t_id ∈ K ++ declared_in ignore_ref (fs.take i)) ∨
   ((fs.getD i default).feature = "exon" ∧
      (fs.getD i default).t_id ∉ K ++ declared_in ignore_ref (fs.take i)))

/-- Membership test of the source against the dictionary keys. -/
lemma keys_any (d : List (ℕ × Transfrag)) (tid : ℕ) :
    ((d.any fun p => decide (p.1 = tid)) = true) ↔ tid ∈ keys d := by
  rw [List.any_eq_true]
  unfold keys
  rw [List.mem_map]
  constructor
  · rintro ⟨p, hp, hpt⟩
    simp only [decide_eq_true_eq] at hpt
    exact ⟨p, hp, hpt⟩
  · rintro ⟨p, hp, hpt⟩
    exact ⟨p, hp, by simp [hpt]⟩

/-- Exon updates do not change the dictionary keys. -/
lemma keys_upd_exons (d : List (ℕ × Transfrag)) (tid : ℕ) (e : ℤ × ℤ) :
    keys (upd_exons d tid e) = keys d := by
  unfold keys upd_exons
  rw [List.map_map]
  apply List.map_congr_left
  intro p _
  by_cases h : p.1 = tid <;> simp [h]

/-- declared_in splits off the head feature. -/
lemma declared_in_cons (ir : Bool) (f : GTFFeature) (l : List GTFFeature) :
    declared_in ir (f :: l) = declared_in ir [f] ++ declared_in ir l := by
  unfold declared_in
  rw [show (f :: l) = [f] ++ l from rfl, List.filter_append, List.map_append]

/-- Shifts a malformedness index across the head feature. -/
lemma bad_wrt_succ (ir : Bool) (K : List ℕ) (f : GTFFeature) (rest : List GTFFeature) (j : ℕ) :
    bad_wrt ir K (f :: rest) (j + 1) ↔ bad_wrt ir (K ++ declared_in ir [f]) rest j := by
  unfold bad_wrt
  rw [List.take_succ_cons, declared_in_cons, ← List.append_assoc]
  simp only [List.getD_cons_succ, List.length_cons]
  constructor
  · rintro ⟨h, h2⟩
    exact ⟨by omega, h2⟩
  · rintro ⟨h, h2⟩
    exact ⟨by omega, h2⟩

/-- declared_in of a skipped reference feature is empty. -/
lemma declared_in_single_skip (ir : Bool) (f : GTFFeature)
    (hskip : (f.is_ref && ir) = true) : declared_in ir [f] = [] := by
  unfold declared_in
  cases hr : f.is_ref <;> cases hi : ir <;> simp_all

/-- declared_in of a processed transcript feature is its identifier. -/
lemma declared_in_single_transcript (ir : Bool) (f : GTFFeature)
    (hft : f.feature = "transcript") (hproc : (f.is_ref && ir) = false) :
    declared_in ir [f] = [f.t_id] := by
  unfold declared_in
  cases hr : f.is_ref <;> cases hi : ir <;> simp_all

/-- declared_in of a non-transcript feature is empty. -/
lemma declared_in_single_other (ir : Bool) (f : GTFFeature)
    (hft : ¬ f.feature = "transcript") : declared_in ir [f] = [] := by
  simp [declared_in, hft]

/-- Unfolds malformedness of the head feature. -/
lemma bad_wrt_zero (ir : Bool) (K : List ℕ) (f : GTFFeature) (rest : List GTFFeature) :
    bad_wrt ir K (f :: rest) 0 ↔
      ((f.is_ref && ir) = false ∧
       ((f.feature = "transcript" ∧ f.t_id ∈ K) ∨
        (f.feature = "exon" ∧ f.t_id ∉ K))) := by
  unfold bad_wrt
  simp only [List.take_zero, List.getD_cons_zero, List.length_cons]
  constructor
  · rintro ⟨_, hp, hc⟩
    refine ⟨hp, ?_⟩
    simpa [declared_in] using hc
  · rintro ⟨hp, hc⟩
    exact ⟨by omega, hp, by simpa [declared_in] using hc⟩

/-- Splits an existential over indexes at zero. -/
lemma exists_nat_split {P : ℕ → Prop} : (∃ i, P i) ↔ P 0 ∨ ∃ j, P (j + 1) := by
  constructor
  · rintro ⟨i, hi⟩
    cases i with
    | zero => exact Or.inl hi
    | succ j => exact Or.inr ⟨j, hi⟩
  · rintro (h0 | ⟨j, hj⟩)
    · exact ⟨0, h0⟩
    · exact ⟨j + 1, hj⟩

/-- Error characterization of the parse_gtf fold from an arbitrary
dictionary: it errors exactly when some feature is malformed relative to
the keys accumulated before it. -/
lemma parse_aux_error (ir : Bool) :
    ∀ (fs : List GTFFeature) (d : List (ℕ × Transfrag)),
      (∃ msg, fs.foldlM (parse_gtf_step ir) d = .error msg) ↔
      ∃ i, bad_wrt ir (keys d) fs i
  | [], d => by
    simp only [List.foldlM_nil]
    constructor
    · rintro ⟨msg, hmsg⟩
      exact Except.noConfusion hmsg
    · rintro ⟨i, hi⟩
      exact absurd hi.1 (by simp)
  | f :: rest, d => by
    rw [List.foldlM_cons]
    rw [show (∃ i, bad_wrt ir (keys d) (f :: rest) i) ↔
        bad_wrt ir (keys d) (f :: rest) 0 ∨ ∃ j, bad_wrt ir (keys d) (f :: rest) (j + 1) from
      exists_nat_split]
    by_cases hskip : (f.is_ref && ir) = true
    · have hstep : parse_gtf_step ir d f = .ok d := by
        unfold parse_gtf_step
        rw [if_pos hskip]
      rw [hstep]
      have hd : declared_in ir [f] = [] := declared_in_single_skip ir f hskip
      constructor
      · intro h
        rcases (parse_aux_error ir rest d).mp h with ⟨j, hj⟩
        refine Or.inr ⟨j, (bad_wrt_succ ir (keys d) f rest j).mpr ?_⟩
        rw [hd, List.append_nil]
        exact hj
      · rintro (h0 | ⟨j, hj⟩)
        · rcases (bad_wrt_zero ir (keys d) f rest).mp h0 with ⟨hproc, _⟩
          rw [hskip] at hproc
          exact Bool.noConfusion hproc
        · have hj' := (bad_wrt_succ ir (keys d) f rest j).mp hj
          rw [hd, List.append_nil] at hj'
          exact (parse_aux_error ir rest d).mpr ⟨j, hj'⟩
    · have hskip' : (f.is_ref && ir) = false := by
        revert hskip
        cases (f.is_ref && ir) <;> simp
      by_cases hft : f.feature = "transcript"
      · by_cases hdup : f.t_id ∈ keys d
        · have hany : (d.any fun p => decide (p.1 = f.t_id)) = true :=
            (keys_any d f.t_id).mpr hdup
          have hstep : parse_gtf_step ir d f = .error "Transcript duplicate detected" := by
            unfold parse_gtf_step
            rw [if_neg (by simp [hskip']), if_pos hft, if_pos hany]
          rw [hstep]
          constructor
          · intro _
            exact Or.inl ((bad_wrt_zero ir (keys d) f rest).mpr
              ⟨hskip', Or.inl ⟨hft, hdup⟩⟩)
          · intro _
            exact ⟨"Transcript duplicate detected", rfl⟩
        · have hany : (d.any fun p => decide (p.1 = f.t_id)) = false := by
            cases hc : (d.any fun p => decide (p.1 = f.t_id))
            · rfl
            · exact absurd ((keys_any d f.t_id).mp hc) hdup
          have hstep : parse_gtf_step ir d f =
              .ok (d ++ [(f.t_id, Transfrag.from_gtf f)]) := by
            unfold parse_gtf_step
            rw [if_neg (by simp [hskip']), if_pos hft, if_neg (by simp [hany])]
          rw [hstep]
          have hkeys : keys (d ++ [(f.t_id, Transfrag.from_gtf f)]) =
              keys d ++ [f.t_id] := by
            simp [keys]
          have hd : declared_in ir [f] = [f.t_id] :=
            declared_in_single_transcript ir f hft hskip'
          constructor
          · intro h
            rcases (parse_aux_error ir rest (d ++ [(f.t_id, Transfrag.from_gtf f)])).mp h
              with ⟨j, hj⟩
            rw [hkeys] at hj
            refine Or.inr ⟨j, (bad_wrt_succ ir (keys d) f rest j).mpr ?_⟩
            rw [hd]
            exact hj
          · rintro (h0 | ⟨j, hj⟩)
            · rcases (bad_wrt_zero ir (keys d) f rest).mp h0 with ⟨_, hcond⟩
              rcases hcond with ⟨_, hmem⟩ | ⟨hfe, _⟩
              · exact absurd hmem hdup
              · exact absurd (hft.symm.trans hfe) (by decide)
            · have hj' := (bad_wrt_succ ir (keys d) f rest j).mp hj
              rw [hd] at hj'
              refine (parse_aux_error ir rest _).mpr ⟨j, ?_⟩
              rw [hkeys]
              exact hj'
      · by_cases hfe : f.feature = "exon"
        · by_cases hmem : f.t_id ∈ keys d
          · have hany : (d.any fun p => decide (p.1 = f.t_id)) = true :=
              (keys_any d f.t_id).mpr hmem
            have hstep : parse_gtf_step ir d f =
                .ok (upd_exons d f.t_id (f.start, f.stop)) := by
              unfold parse_gtf_step
              rw [if_neg (by simp [hskip']), if_neg hft, if_pos hfe, if_pos hany]
            rw [hstep]
            have hkeys := keys_upd_exons d f.t_id (f.start, f.stop)
            have hd : declared_in ir [f] = [] := declared_in_single_other ir f hft
            constructor
            · intro h
              rcases (parse_aux_error ir rest _).mp h with ⟨j, hj⟩
              rw [hkeys] at hj
              refine Or.inr ⟨j, (bad_wrt_succ ir (keys d) f rest j).mpr ?_⟩
              rw [hd, List.append_nil]
              exact hj
            · rintro (h0 | ⟨j, hj⟩)
              · rcases (bad_wrt_zero ir (keys d) f rest).mp h0 with ⟨_, hcond⟩
                rcases hcond with ⟨hftr, _⟩ | ⟨_, hnm⟩
                · exact absurd hftr hft
                · exact absurd hmem hnm
              · have hj' := (bad_wrt_succ ir (keys d) f rest j).mp hj
                rw [hd, List.append_nil] at hj'
                refine (parse_aux_error ir rest _).mpr ⟨j, ?_⟩
                rw [hkeys]
                exact hj'
          · have hany : (d.any fun p => decide (p.1 = f.t_id)) = false := by
              cases hc : (d.any fun p => decide (p.1 = f.t_id))
              · rfl
              · exact absurd ((keys_any d f.t_id).mp hc) hmem
            have hstep : parse_gtf_step ir d f = .error
                "Transcript exon feature appeared in gtf file prior to transcript feature" := by
              unfold parse_gtf_step
              rw [if_neg (by simp [hskip']), if_neg hft, if_pos hfe, if_neg (by simp [hany])]
            rw [hstep]
            constructor
            · intro _
              exact Or.inl ((bad_wrt_zero ir (keys d) f rest).mpr
                ⟨hskip', Or.inr ⟨hfe, hmem⟩⟩)
            · intro _
              exact ⟨_, rfl⟩
        · have hstep : parse_gtf_step ir d f = .ok d := by
            unfold parse_gtf_step
            rw [if_neg (by simp [hskip']), if_neg hft, if_neg hfe]
          rw [hstep]
          have hd : declared_in ir [f] = [] := declared_in_single_other ir f hft
          constructor
          · intro h
            rcases (parse_aux_error ir rest d).mp h with ⟨j, hj⟩
            refine Or.inr ⟨j, (bad_wrt_succ ir (keys d) f rest j).mpr ?_⟩
            rw [hd, List.append_nil]
            exact hj
          · rintro (h0 | ⟨j, hj⟩)
            · rcases (bad_wrt_zero ir (keys d) f rest).mp h0 with ⟨_, hcond⟩
              rcases hcond with ⟨hftr, _⟩ | ⟨hfer, _⟩
              · exact absurd hftr hft
              · exact absurd hfer hfe
            · have hj' := (bad_wrt_succ ir (keys d) f rest j).mp hj
              rw [hd, List.append_nil] at hj'
              exact (parse_aux_error ir rest d).mpr ⟨j, hj'⟩

/-- C8: Transfrag.parse_gtf errors exactly when a processed transcript
feature redeclares an identifier already present in the mapping or a
processed exon feature references an identifier not yet declared; on any
other input it returns the transcript mapping without error.  Reference
features are skipped entirely when ignore_ref is set and therefore
neither declare identifiers nor raise. -/
theorem C8_parse_gtf_error_iff (ignore_ref : Bool) (gtf_lines : List GTFFeature) :
    ((∃ msg, parse_gtf ignore_ref gtf_lines = .error msg) ↔
      ∃ i, bad_wrt ignore_ref [] gtf_lines i) ∧
    ((¬ ∃ i, bad_wrt ignore_ref [] gtf_lines i) →
      ∃ m, parse_gtf ignore_ref gtf_lines = .ok m) := by
  have h := parse_aux_error ignore_ref gtf_lines []
  constructor
  · exact h
  · intro hn
    cases hp : parse_gtf ignore_ref gtf_lines with
    | ok m => exact ⟨m, rfl⟩
    | error msg => exact absurd (h.mp ⟨msg, hp⟩) hn

/-- Witness for C8: a duplicate transcript identifier aborts parsing. -/
theorem C8_parse_gtf_error_iff_witness :
    ∃ msg, parse_gtf true
      [⟨0, "transcript", 0, 10, 0, 7, 0, 0, false⟩,
       ⟨0, "transcript", 20, 30, 0, 7, 0, 0, false⟩] = .error msg :=
  (C8_parse_gtf_error_iff true
      [⟨0, "transcript", 0, 10, 0, 7, 0, 0, false⟩,
       ⟨0, "transcript", 20, 30, 0, 7, 0, 0, false⟩]).1.mpr
    ⟨1, by decide, by decide, Or.inl ⟨by decide, by decide⟩⟩

/-- Three-element strand_transcript_lists of the source, one bucket per
strand value. -/
structure TLists where
  pos : List Transcript
  neg : List Transcript
  unk : List Transcript
deriving DecidableEq, Repr

/-- Embeds transcript_lists[t.strand].append(t): appending at a strand
index outside the three-element list raises in Python and returns none
here. -/
def TLists.append (ls : TLists) (s : ℕ) (t : Transcript) : Option TLists :=
  if s = 0 then some { ls with pos := ls.pos ++ [t] }
  else if s = 1 then some { ls with neg := ls.neg ++ [t] }
  else if s = 2 then some { ls with unk := ls.unk ++ [t] }
  else none

/-- Two-element strand_ref_transcripts of the source. -/
structure RefLists where
  pos : List Transcript
  neg : List Transcript
deriving DecidableEq, Repr

/-- Embeds strand_ref_transcripts[t.strand].append(t) on the two-element
reference list. -/
def RefLists.append (ls : RefLists) (s : ℕ) (t : Transcript) : Option RefLists :=
  if s = 0 then some { ls with pos := ls.pos ++ [t] }
  else if s = 1 then some { ls with neg := ls.neg ++ [t] }
  else none

/-- Embeds add_transcript of partition_transcripts_by_strand: add the
transcript score to the score slot of its strand for every visited node,
then append the transcript to the bucket of its strand. -/
def add_transcript (t : Transcript) (nodes : List Node) (transcript_lists : TLists)
    (node_data : NDMap) : Option (TLists × NDMap) := do
  let nd ← nodes.foldlM (fun (m : NDMap) n => do
      let v ← (m n).addScore t.strand t.score
      pure (Function.update m n v)) node_data
  let ls ← transcript_lists.append t.strand t
  pure (ls, nd)

/-- Multiset of transcript identifiers across the three buckets. -/
def bucketIds (ls : TLists) : Multiset ℕ :=
  (((ls.pos ++ ls.neg ++ ls.unk).map Transcript.id : List ℕ) : Multiset ℕ)

/-- Multiset of transcript identifiers of a list. -/
def idsOf (l : List Transcript) : Multiset ℕ :=
  ((l.map Transcript.id : List ℕ) : Multiset ℕ)

/-- A successful add_transcript call appends the transcript to exactly
the bucket of its strand. -/
lemma add_transcript_shape (t : Transcript) (nodes : List Node) (ls : TLists)
    (nd : NDMap) (r : TLists × NDMap) (h : add_transcript t nodes ls nd = some r) :
    t.strand < 3 ∧
    (t.strand = 0 → r.1 = ⟨ls.pos ++ [t], ls.neg, ls.unk⟩) ∧
    (t.strand = 1 → r.1 = ⟨ls.pos, ls.neg ++ [t], ls.unk⟩) ∧
    (t.strand = 2 → r.1 = ⟨ls.pos, ls.neg, ls.unk ++ [t]⟩) := by
  unfold add_transcript at h
  cases hf : nodes.foldlM (fun (m : NDMap) n => do
      let v ← (m n).addScore t.strand t.score
      pure (Function.update m n v)) nd with
  | none =>
    rw [hf] at h
    exact Option.noConfusion h
  | some nd2 =>
    rw [hf] at h
    unfold TLists.append at h
    have h3 : t.strand < 3 := by
      by_contra hc
      push_neg at hc
      rw [if_neg (by omega), if_neg (by omega), if_neg (by omega)] at h
      exact Option.noConfusion h
    refine ⟨h3, ?_, ?_, ?_⟩
    · intro h0
      rw [if_pos h0] at h
      cases h
      rfl
    · intro h1
      rw [if_neg (by omega), if_pos h1] at h
      cases h
      rfl
    · intro h2
      rw [if_neg (by omega), if_neg (by omega), if_pos h2] at h
      cases h
      rfl

/-- bucketIds splits into the three per-bucket identifier multisets. -/
lemma bucketIds_eq (ls : TLists) :
    bucketIds ls = idsOf ls.pos + idsOf ls.neg + idsOf ls.unk := by
  unfold bucketIds idsOf
  rw [List.map_append, List.map_append, ← Multiset.coe_add, ← Multiset.coe_add]

/-- Identifier multiset of a list extended by one transcript. -/
lemma idsOf_append_singleton (l : List Transcript) (t : Transcript) :
    idsOf (l ++ [t]) = idsOf l + {t.id} := by
  unfold idsOf
  rw [List.map_append, ← Multiset.coe_add]
  simp

/-- Every successful add_transcript call adds exactly one copy of the
transcript identifier to the buckets. -/
lemma add_transcript_ids (t : Transcript) (nodes : List Node) (ls : TLists)
    (nd : NDMap) (r : TLists × NDMap) (h : add_transcript t nodes ls nd = some r) :
    bucketIds r.1 = t.id ::ₘ bucketIds ls := by
  rcases add_transcript_shape t nodes ls nd r h with ⟨h3, h0, h1, h2⟩
  rw [← Multiset.singleton_add, bucketIds_eq, bucketIds_eq]
  rcases (by omega : t.strand = 0 ∨ t.strand = 1 ∨ t.strand = 2) with hs | hs | hs
  · rw [h0 hs]
    show idsOf (ls.pos ++ [t]) + idsOf ls.neg + idsOf ls.unk = _
    rw [idsOf_append_singleton]
    abel
  · rw [h1 hs]
    show idsOf ls.pos + idsOf (ls.neg ++ [t]) + idsOf ls.unk = _
    rw [idsOf_append_singleton]
    abel
  · rw [h2 hs]
    show idsOf ls.pos + idsOf ls.neg + idsOf (ls.unk ++ [t]) = _
    rw [idsOf_append_singleton]
    abel

/-- addScore succeeds exactly on the three concrete score slots. -/
lemma addScore_some (nd : NodeData) (s : ℕ) (x : ℚ) (h : s < 3) :
    ∃ v, nd.addScore s x = some v := by
  unfold NodeData.addScore
  rcases (by omega : s = 0 ∨ s = 1 ∨ s = 2) with hs | hs | hs <;> simp [hs]

/-- The per-node score fold of add_transcript succeeds for an in-range
strand. -/
lemma score_fold_some (t : Transcript) (h : t.strand < 3) :
    ∀ (nodes : List Node) (nd : NDMap),
      ∃ nd2, nodes.foldlM (fun (m : NDMap) n => do
          let v ← (m n).addScore t.strand t.score
          pure (Function.update m n v)) nd = some nd2
  | [], nd => ⟨nd, by simp⟩
  | n :: nodes, nd => by
    rcases addScore_some (nd n) t.strand t.score h with ⟨v, hv⟩
    rcases score_fold_some t h nodes (Function.update nd n v) with ⟨nd2, hnd2⟩
    refine ⟨nd2, ?_⟩
    rw [List.foldlM_cons, hv]
    exact hnd2

/-- Bucket appending succeeds for an in-range strand. -/
lemma TLists.append_some (ls : TLists) (s : ℕ) (t : Transcript) (h : s < 3) :
    ∃ ls2, ls.append s t = some ls2 := by
  unfold TLists.append
  rcases (by omega : s = 0 ∨ s = 1 ∨ s = 2) with hs | hs | hs <;> simp [hs]

/-- add_transcript succeeds for an in-range strand. -/
lemma add_transcript_some (t : Transcript) (nodes : List Node) (ls : TLists)
    (nd : NDMap) (h : t.strand < 3) : ∃ r, add_transcript t nodes ls nd = some r := by
  rcases score_fold_some t h nodes nd with ⟨nd2, hnd2⟩
  rcases TLists.append_some ls t.strand t h with ⟨ls2, hls2⟩
  refine ⟨(ls2, nd2), ?_⟩
  unfold add_transcript
  rw [hnd2, hls2]
  rfl

/-- A transcript is an input transcript with only its strand field
possibly rewritten. -/
def variantOf (ts : List Transcript) (x : Transcript) : Prop :=
  ∃ t ∈ ts, t.is_ref = false ∧ x = { t with strand := x.strand }

/-- Every bucket member carries the strand of its bucket and is an input
transcript with only the strand rewritten. -/
def bucketsInv (ts : List Transcript) (ls : TLists) : Prop :=
  (∀ x ∈ ls.pos, x.strand = 0 ∧ variantOf ts x) ∧
  (∀ x ∈ ls.neg, x.strand = 1 ∧ variantOf ts x) ∧
  (∀ x ∈ ls.unk, x.strand = 2 ∧ variantOf ts x)

/-- Rewriting the strand again stays a variant of the same input. -/
lemma variantOf_update (ts : List Transcript) (x : Transcript) (s : ℕ)
    (h : variantOf ts x) : variantOf ts { x with strand := s } := by
  rcases h with ⟨t, ht, href, hx⟩
  exact ⟨t, ht, href, by rw [hx]⟩

/-- Input transcripts that are not references are variants of themselves. -/
lemma variantOf_self (ts : List Transcript) (x : Transcript) (hx : x ∈ ts)
    (href : x.is_ref = false) : variantOf ts x :=
  ⟨x, hx, href, by cases x <;> rfl⟩

/-- add_transcript preserves the bucket invariant when fed a variant. -/
lemma add_transcript_inv (ts0 : List Transcript) (t : Transcript) (nodes : List Node)
    (ls : TLists) (nd : NDMap) (r : TLists × NDMap)
    (h : add_transcript t nodes ls nd = some r)
    (hv : variantOf ts0 t) (hinv : bucketsInv ts0 ls) : bucketsInv ts0 r.1 := by
  rcases add_transcript_shape t nodes ls nd r h with ⟨h3, h0, h1, h2⟩
  rcases (by omega : t.strand = 0 ∨ t.strand = 1 ∨ t.strand = 2) with hs | hs | hs
  · rw [h0 hs]
    refine ⟨?_, hinv.2.1, hinv.2.2⟩
    intro x hx
    rcases List.mem_append.mp hx with hx' | hx'
    · exact hinv.1 x hx'
    · rw [List.mem_singleton.mp hx']
      exact ⟨hs, hv⟩
  · rw [h1 hs]
    refine ⟨hinv.1, ?_, hinv.2.2⟩
    intro x hx
    rcases List.mem_append.mp hx with hx' | hx'
    · exact hinv.2.1 x hx'
    · rw [List.mem_singleton.mp hx']
      exact ⟨hs, hv⟩
  · rw [h2 hs]
    refine ⟨hinv.1, hinv.2.1, ?_⟩
    intro x hx
    rcases List.mem_append.mp hx with hx' | hx'
    · exact hinv.2.2 x hx'
    · rw [List.mem_singleton.mp hx']
      exact ⟨hs, hv⟩

/-- State threaded through the first classification loop of
partition_transcripts_by_strand. -/
structure P1State where
  node_data : NDMap
  lists : TLists
  refs : RefLists
  unresolved : List Transcript

/-- Embeds the first loop body of partition_transcripts_by_strand: label
nodes of reference transcripts and record them separately, add stranded
transcripts to their bucket with their score, and defer unstranded
transcripts. -/
def classify_transcript (boundaries : List ℤ) (st : P1State) (t : Transcript) :
    Option P1State :=
  if t.is_ref then do
    let nd ← (split_exons t boundaries).foldlM (fun (m : NDMap) n => do
        let v ← (m n).setRef t.strand
        pure (Function.update m n v)) st.node_data
    let refs ← st.refs.append t.strand t
    pure { st with node_data := nd, refs := refs }
  else if t.strand ≠ NO_STRAND then do
    let p ← add_transcript t (split_exons t boundaries) st.lists st.node_data
    pure { st with lists := p.1, node_data := p.2 }
  else
    pure { st with unresolved := st.unresolved ++ [t] }

/-- Deferred transcripts are untouched non-reference inputs with unknown
strand. -/
def unresolvedInv (ts0 : List Transcript) (l : List Transcript) : Prop :=
  ∀ x ∈ l, x ∈ ts0 ∧ x.is_ref = false ∧ x.strand = 2

/-- setRef succeeds exactly on the two concrete strands. -/
lemma setRef_some (nd : NodeData) (s : ℕ) (h : s < 2) :
    ∃ v, nd.setRef s = some v := by
  unfold NodeData.setRef
  rcases (by omega : s = 0 ∨ s = 1) with hs | hs <;> simp [hs]

/-- The reference labelling fold succeeds for a stranded reference. -/
lemma ref_fold_some (t : Transcript) (h : t.strand < 2) :
    ∀ (nodes : List Node) (nd : NDMap),
      ∃ nd2, nodes.foldlM (fun (m : NDMap) n => do
          let v ← (m n).setRef t.strand
          pure (Function.update m n v)) nd = some nd2
  | [], nd => ⟨nd, by simp⟩
  | n :: nodes, nd => by
    rcases setRef_some (nd n) t.strand h with ⟨v, hv⟩
    rcases ref_fold_some t h nodes (Function.update nd n v) with ⟨nd2, hnd2⟩
    refine ⟨nd2, ?_⟩
    rw [List.foldlM_cons, hv]
    exact hnd2

/-- Reference list appending succeeds for a concrete strand. -/
lemma RefLists.refAppend_some (ls : RefLists) (s : ℕ) (t : Transcript) (h : s < 2) :
    ∃ ls2, ls.append s t = some ls2 := by
  unfold RefLists.append
  rcases (by omega : s = 0 ∨ s = 1) with hs | hs <;> simp [hs]

/-- The classification loop succeeds on well-formed inputs. -/
lemma classify_fold_some (boundaries : List ℤ) :
    ∀ (ts : List Transcript) (st : P1State),
      (∀ t ∈ ts, t.strand < 3 ∧ (t.is_ref = true → t.strand < 2)) →
      ∃ st1, ts.foldlM (classify_transcript boundaries) st = some st1
  | [], st, _ => ⟨st, by simp⟩
  | t :: ts, st, h => by
    have ht := h t (by simp)
    have hrest : ∀ x ∈ ts, x.strand < 3 ∧ (x.is_ref = true → x.strand < 2) :=
      fun x hx => h x (by simp [hx])
    have hstep : ∃ st2, classify_transcript boundaries st t = some st2 := by
      unfold classify_transcript
      by_cases href : t.is_ref
      · rw [if_pos href]
        rcases ref_fold_some t (ht.2 href) (split_exons t boundaries) st.node_data
          with ⟨nd2, hnd2⟩
        rcases RefLists.refAppend_some st.refs t.strand t (ht.2 href) with ⟨refs2, hrefs2⟩
        refine ⟨{ st with node_data := nd2, refs := refs2 }, ?_⟩
        rw [hnd2, hrefs2]
        rfl
      · rw [if_neg href]
        by_cases hstrand : t.strand ≠ NO_STRAND
        · rw [if_pos hstrand]
          rcases add_transcript_some t (split_exons t boundaries) st.lists st.node_data
            ht.1 with ⟨p, hp⟩
          refine ⟨{ st with lists := p.1, node_data := p.2 }, ?_⟩
          rw [hp]
          rfl
        · rw [if_neg hstrand]
          exact ⟨_, rfl⟩
    rcases hstep with ⟨st2, hst2⟩
    rcases classify_fold_some boundaries ts st2 hrest with ⟨st1, hst1⟩
    refine ⟨st1, ?_⟩
    rw [List.foldlM_cons, hst2]
    exact hst1

/-- Identifier multiset of a cons. -/
lemma idsOf_cons (t : Transcript) (l : List Transcript) :
    idsOf (t :: l) = t.id ::ₘ idsOf l := by
  unfold idsOf
  simp

/-- Shape of a successful classification step in each of its three
branches. -/
lemma classify_step_char (boundaries : List ℤ) (st : P1State) (t : Transcript)
    (st2 : P1State) (h : classify_transcript boundaries st t = some st2) :
    (t.is_ref = true → st2.lists = st.lists ∧ st2.unresolved = st.unresolved) ∧
    (t.is_ref = false → t.strand ≠ 2 →
      ∃ p, add_transcript t (split_exons t boundaries) st.lists st.node_data = some p ∧
        st2.lists = p.1 ∧ st2.unresolved = st.unresolved) ∧
    (t.is_ref = false → t.strand = 2 →
      st2.lists = st.lists ∧ st2.unresolved = st.unresolved ++ [t]) := by
  unfold classify_transcript at h
  by_cases href : t.is_ref
  · rw [if_pos href] at h
    cases hf : (split_exons t boundaries).foldlM (fun (m : NDMap) n => do
        let v ← (m n).setRef t.strand
        pure (Function.update m n v)) st.node_data with
    | none => rw [hf] at h; exact Option.noConfusion h
    | some nd2 =>
      rw [hf] at h
      cases hr : st.refs.append t.strand t with
      | none => rw [hr] at h; exact Option.noConfusion h
      | some refs2 =>
        rw [hr] at h
        cases h
        refine ⟨fun _ => ⟨rfl, rfl⟩, fun hf' => ?_, fun hf' => ?_⟩ <;>
          exact absurd (href.symm.trans hf') (by decide)
  · have href' : t.is_ref = false := by
      revert href
      cases t.is_ref <;> simp
    rw [if_neg href] at h
    by_cases hstrand : t.strand ≠ NO_STRAND
    · rw [if_pos hstrand] at h
      cases hp : add_transcript t (split_exons t boundaries) st.lists st.node_data with
      | none => rw [hp] at h; exact Option.noConfusion h
      | some p =>
        rw [hp] at h
        cases h
        refine ⟨fun hf' => absurd (href'.symm.trans hf') (by decide),
          fun _ _ => ⟨p, rfl, rfl, rfl⟩, fun _ hs => absurd hs hstrand⟩
    · rw [if_neg hstrand] at h
      cases h
      push_neg at hstrand
      refine ⟨fun hf' => absurd (href'.symm.trans hf') (by decide),
        fun _ hs => absurd hstrand hs, fun _ _ => ⟨rfl, rfl⟩⟩

/-- Conditional characterization of the classification fold: it preserves
the bucket and deferred invariants and distributes each non-reference
identifier exactly once between buckets and the deferred list. -/
lemma classify_fold_char (boundaries : List ℤ) (ts0 : List Transcript) :
    ∀ (ts : List Transcript) (st st1 : P1State),
      ts.foldlM (classify_transcript boundaries) st = some st1 →
      (∀ t ∈ ts, t ∈ ts0) →
      ((bucketsInv ts0 st.lists ∧ unresolvedInv ts0 st.unresolved) →
        bucketsInv ts0 st1.lists ∧ unresolvedInv ts0 st1.unresolved) ∧
      bucketIds st1.lists + idsOf st1.unresolved =
        bucketIds st.lists + idsOf st.unresolved + idsOf (ts.filter fun t => !t.is_ref)
  | [], st, st1, h, _ => by
    simp only [List.foldlM_nil] at h
    cases h
    refine ⟨fun hi => hi, ?_⟩
    simp [idsOf]
  | t :: ts, st, st1, h, hsub => by
    rw [List.foldlM_cons] at h
    cases hstep : classify_transcript boundaries st t with
    | none => rw [hstep] at h; exact Option.noConfusion h
    | some st2 =>
      rw [hstep] at h
      have hchar := classify_step_char boundaries st t st2 hstep
      have ih := classify_fold_char boundaries ts0 ts st2 st1 h
        (fun x hx => hsub x (by simp [hx]))
      by_cases href : t.is_ref
      · rcases hchar.1 href with ⟨hl, hu⟩
        refine ⟨?_, ?_⟩
        · intro hi
          apply ih.1
          rw [hl, hu]
          exact hi
        · rw [ih.2, hl, hu]
          have hfil : (t :: ts).filter (fun t => !t.is_ref) =
              ts.filter (fun t => !t.is_ref) := by
            simp [List.filter_cons, href]
          rw [hfil]
      · have href' : t.is_ref = false := by
          revert href
          cases t.is_ref <;> simp
        by_cases hstrand : t.strand = 2
        · rcases hchar.2.2 href' hstrand with ⟨hl, hu⟩
          have hfil : (t :: ts).filter (fun t => !t.is_ref) =
              t :: ts.filter (fun t => !t.is_ref) := by
            simp [List.filter_cons, href']
          refine ⟨?_, ?_⟩
          · intro hi
            apply ih.1
            refine ⟨by rw [hl]; exact hi.1, ?_⟩
            rw [hu]
            intro x hx
            rcases List.mem_append.mp hx with hx' | hx'
            · exact hi.2 x hx'
            · rw [List.mem_singleton.mp hx']
              exact ⟨hsub t (by simp), href', hstrand⟩
          · rw [ih.2, hl, hu, hfil, idsOf_append_singleton, idsOf_cons,
              ← Multiset.singleton_add]
            abel
        · rcases hchar.2.1 href' hstrand with ⟨p, hp, hl, hu⟩
          have hids := add_transcript_ids t (split_exons t boundaries)
            st.lists st.node_data p hp
          have hfil : (t :: ts).filter (fun t => !t.is_ref) =
              t :: ts.filter (fun t => !t.is_ref) := by
            simp [List.filter_cons, href']
          refine ⟨?_, ?_⟩
          · intro hi
            apply ih.1
            refine ⟨?_, by rw [hu]; exact hi.2⟩
            rw [hl]
            exact add_transcript_inv ts0 t _ st.lists st.node_data p hp
              (variantOf_self ts0 t (hsub t (by simp)) href') hi.1
          · rw [ih.2, hl, hu, hids, hfil, idsOf_cons, ← Multiset.singleton_add,
              ← Multiset.singleton_add]
            abel

/-- State of the first step-4 loop: resolved and still-unresolved batch
members, the growing unresolved node set, and the ambient NodeData that
the loop reads but never writes. -/
structure Step4State where
  resolved : List Transcript
  still_unresolved : List Transcript
  unresolved_nodes : List Node
  node_data : NDMap

/-- Set-union extension of the unresolved node list, the
unresolved_nodes.update(nodes) of the source. -/
def nodesUnion (acc : List Node) (nodes : List Node) : List Node :=
  nodes.foldl (fun a n => if n ∈ a then a else a ++ [n]) acc

/-- Embeds the first step-4 loop body: write the vote of resolve_strand
into the transcript strand, then sort it into resolved or
still-unresolved. -/
def step4_classify (boundaries : List ℤ) (st : Step4State) (t : Transcript) : Step4State :=
  if resolve_strand (split_exons t boundaries) st.node_data ≠ NO_STRAND then
    { st with
      resolved :=
        st.resolved ++
          [{ t with strand := resolve_strand (split_exons t boundaries) st.node_data }] }
  else
    { st with
      still_unresolved :=
        st.still_unresolved ++
          [{ t with strand := resolve_strand (split_exons t boundaries) st.node_data }],
      unresolved_nodes := nodesUnion st.unresolved_nodes (split_exons t boundaries) }

/-- Embeds step 4 of partition_transcripts_by_strand: one pass assigning
each deferred transcript the strand voted from the ambient NodeData, then
one pass folding the resolved transcripts into buckets and NodeData. -/
def step4 (boundaries : List ℤ) (batch : List Transcript) (lists : TLists)
    (node_data : NDMap) : Option (TLists × NDMap × List Transcript × List Node) := do
  let st := batch.foldl (step4_classify boundaries) ⟨[], [], [], node_data⟩
  let p ← st.resolved.foldlM
    (fun (acc : TLists × NDMap) t => add_transcript t (split_exons t boundaries) acc.1 acc.2)
    (lists, st.node_data)
  pure (p.1, p.2, st.still_unresolved, st.unresolved_nodes)

/-- Pure two-phase reference for step 4, following the words of the spec:
every deferred transcript is resolved against the NodeData snapshot as it
stood after steps 2 and 3, unaffected by other batch members, and the
scores of the members that resolved are folded into NodeData only after
the whole batch. -/
def step4_twophase (boundaries : List ℤ) (batch : List Transcript) (lists : TLists)
    (node_data : NDMap) : Option (TLists × NDMap × List Transcript × List Node) := do
  let rs := batch.map fun t =>
    { t with strand := resolve_strand (split_exons t boundaries) node_data }
  let resolved := rs.filter fun t => decide (t.strand ≠ NO_STRAND)
  let still := rs.filter fun t => decide (t.strand = NO_STRAND)
  let unodes := still.foldl (fun acc t => nodesUnion acc (split_exons t boundaries)) []
  let p ← resolved.foldlM
    (fun (acc : TLists × NDMap) t => add_transcript t (split_exons t boundaries) acc.1 acc.2)
    (lists, node_data)
  pure (p.1, p.2, still, unodes)

/-- The first step-4 loop never changes the ambient NodeData, and its
outputs are the map-and-filter of the batch against that snapshot. -/
lemma step4_fold_char (boundaries : List ℤ) (nd0 : NDMap) :
    ∀ (batch : List Transcript) (res stl : List Transcript) (un : List Node),
      batch.foldl (step4_classify boundaries) ⟨res, stl, un, nd0⟩ =
        ⟨res ++ (batch.map fun t =>
            { t with strand := resolve_strand (split_exons t boundaries) nd0 }).filter
            (fun t => decide (t.strand ≠ NO_STRAND)),
         stl ++ (batch.map fun t =>
            { t with strand := resolve_strand (split_exons t boundaries) nd0 }).filter
            (fun t => decide (t.strand = NO_STRAND)),
         (batch.filter fun t =>
            decide (resolve_strand (split_exons t boundaries) nd0 = NO_STRAND)).foldl
           (fun a t => nodesUnion a (split_exons t boundaries)) un,
         nd0⟩
  | [], res, stl, un => by simp
  | t :: batch, res, stl, un => by
    set r := resolve_strand (split_exons t boundaries) nd0 with hr
    rw [List.foldl_cons]
    by_cases hres : r ≠ NO_STRAND
    · have hstep : step4_classify boundaries ⟨res, stl, un, nd0⟩ t =
          ⟨res ++ [{ t with strand := r }], stl, un, nd0⟩ := by
        unfold step4_classify
        rw [if_pos hres]
      rw [hstep,
        step4_fold_char boundaries nd0 batch
          (res ++ [({ t with strand := r } : Transcript)]) stl un]
      have hd1 : (decide (r ≠ NO_STRAND)) = true := by simpa using hres
      have hd2 : (decide (r = NO_STRAND)) = false := by simpa using hres
      rw [hr] at hd1 hd2 ⊢
      simp only [List.map_cons, List.filter_cons, hd1, hd2, if_true, if_false,
        List.append_assoc, List.cons_append, List.singleton_append, List.nil_append]
      simp
    · push_neg at hres
      have hres' : ¬ r ≠ NO_STRAND := fun hc => hc hres
      have hstep : step4_classify boundaries ⟨res, stl, un, nd0⟩ t =
          ⟨res, stl ++ [{ t with strand := r }],
            nodesUnion un (split_exons t boundaries), nd0⟩ := by
        unfold step4_classify
        rw [if_neg hres']
      rw [hstep,
        step4_fold_char boundaries nd0 batch res
          (stl ++ [({ t with strand := r } : Transcript)])
          (nodesUnion un (split_exons t boundaries))]
      have hd1 : (decide (r ≠ NO_STRAND)) = false := by simpa using hres
      have hd2 : (decide (r = NO_STRAND)) = true := by simpa using hres
      rw [hr] at hd1 hd2 ⊢
      simp only [List.map_cons, List.filter_cons, hd1, hd2, if_true, if_false,
        List.append_assoc, List.cons_append, List.singleton_append, List.nil_append]
      simp

/-- C7: the in-place step-4 pass of the source equals the pure two-phase
reference: every deferred transcript is resolved against the NodeData
snapshot from steps 2 and 3 only, and the scores of resolving members are
folded into NodeData only after the whole batch, before the clustering
fallback. -/
theorem C7_step4_two_phase (boundaries : List ℤ) (batch : List Transcript)
    (lists : TLists) (node_data : NDMap) :
    step4 boundaries batch lists node_data =
      step4_twophase boundaries batch lists node_data := by
  have hun : (((batch.map fun t =>
        { t with strand := resolve_strand (split_exons t boundaries) node_data }).filter
        (fun t => decide (t.strand = NO_STRAND))).foldl
        (fun acc t => nodesUnion acc (split_exons t boundaries)) ([] : List Node)) =
      ((batch.filter fun t =>
        decide (resolve_strand (split_exons t boundaries) node_data = NO_STRAND)).foldl
        (fun a t => nodesUnion a (split_exons t boundaries)) ([] : List Node)) := by
    rw [List.filter_map, List.foldl_map]
    rfl
  simp only [step4, step4_twophase]
  rw [step4_fold_char boundaries node_data batch [] [] []]
  simp only [List.nil_append]
  rw [hun]

/-- Lexicographic order on node tuples, the Python tuple ordering used by
sorted on the unresolved node set. -/
def nodeLe (a b : Node) : Prop :=
  a.1 < b.1 ∨ (a.1 = b.1 ∧ a.2 ≤ b.2)

instance nodeLe.decRel : DecidableRel nodeLe := fun a b =>
  decidable_of_iff (a.1 < b.1 ∨ (a.1 = b.1 ∧ a.2 ≤ b.2)) Iff.rfl

/-- Modelled from the spec: sweep of the interval clustering collaborator
(ClusterTree of assemblyline.lib.bx.cluster, not among the provided
sources) over a start-sorted node list, grouping nodes into maximal runs
of transitively overlapping or touching intervals. -/
def cluster_sweep : List Node → List Node → ℤ → List (List Node)
  | [], grp, _ => [grp]
  | n :: rest, grp, cend =>
    if n.1 ≤ cend then cluster_sweep rest (grp ++ [n]) (max cend n.2)
    else grp :: cluster_sweep rest [n] n.2

/-- Modelled from the spec: the clusters returned for a node list. -/
def cluster_nodes (nodes : List Node) : List (List Node) :=
  match nodes with
  | [] => []
  | n :: rest => cluster_sweep rest [n] n.2

/-- The sweep partitions the accumulated group and remaining nodes. -/
lemma cluster_sweep_join :
    ∀ (l : List Node) (grp : List Node) (cend : ℤ),
      (cluster_sweep l grp cend).join = grp ++ l
  | [], grp, cend => by simp [cluster_sweep]
  | n :: rest, grp, cend => by
    unfold cluster_sweep
    by_cases h : n.1 ≤ cend
    · rw [if_pos h, cluster_sweep_join rest (grp ++ [n]) (max cend n.2)]
      simp
    · rw [if_neg h]
      simp only [List.join_cons, cluster_sweep_join rest [n] n.2]
      simp

/-- Every clustered node lands in some cluster. -/
lemma cluster_nodes_cover (nodes : List Node) (n : Node) (h : n ∈ nodes) :
    ∃ g ∈ cluster_nodes nodes, n ∈ g := by
  cases nodes with
  | nil => cases h
  | cons m rest =>
    have hj : (cluster_nodes (m :: rest)).join = m :: rest := by
      unfold cluster_nodes
      rw [cluster_sweep_join rest [m] m.2]
      rfl
    have : n ∈ (cluster_nodes (m :: rest)).join := by
      rw [hj]
      exact h
    exact List.mem_join.mp this

/-- resolve_strand only returns the three strand constants. -/
lemma resolve_strand_le_two (nodes : List Node) (nd : NDMap) :
    resolve_strand nodes nd ≤ 2 := by
  simp only [resolve_strand]
  split
  · split
    · simp [POS_STRAND]
    · simp [NEG_STRAND]
  · split
    · split
      · simp [POS_STRAND]
      · simp [NEG_STRAND]
    · simp [NO_STRAND]

/-- Node membership in the set union of the source. -/
lemma mem_nodesUnion :
    ∀ (nodes acc : List Node) (n : Node),
      n ∈ nodesUnion acc nodes ↔ n ∈ acc ∨ n ∈ nodes
  | [], acc, n => by simp [nodesUnion]
  | m :: nodes, acc, n => by
    unfold nodesUnion
    rw [List.foldl_cons]
    by_cases h : m ∈ acc
    · rw [if_pos h]
      rw [show List.foldl (fun a n => if n ∈ a then a else a ++ [n]) acc nodes =
          nodesUnion acc nodes from rfl, mem_nodesUnion nodes acc n]
      constructor
      · rintro (ha | hn)
        · exact Or.inl ha
        · exact Or.inr (by simp [hn])
      · rintro (ha | hn)
        · exact Or.inl ha
        · rcases List.mem_cons.mp hn with rfl | hn'
          · exact Or.inl h
          · exact Or.inr hn'
    · rw [if_neg h]
      rw [show List.foldl (fun a n => if n ∈ a then a else a ++ [n]) (acc ++ [m]) nodes =
          nodesUnion (acc ++ [m]) nodes from rfl, mem_nodesUnion nodes (acc ++ [m]) n]
      constructor
      · rintro (ha | hn)
        · rcases List.mem_append.mp ha with ha' | ha'
          · exact Or.inl ha'
          · exact Or.inr (by simp [List.mem_singleton.mp ha'])
        · exact Or.inr (by simp [hn])
      · rintro (ha | hn)
        · exact Or.inl (by simp [ha])
        · rcases List.mem_cons.mp hn with rfl | hn'
          · exact Or.inl (by simp)
          · exact Or.inr hn'

/-- Embeds the node_strand_map construction of step 5: one resolve_strand
vote per cluster, written into every node of the cluster; nodes of no
cluster stay unmapped. -/
def nsmap_fold (nd : NDMap) (clusters : List (List Node)) : Node → Option ℕ :=
  clusters.foldl
    (fun m g => g.foldl (fun m2 n => Function.update m2 n (some (resolve_strand g nd))) m)
    (fun _ => none)

/-- Writing one cluster into the map keeps a node mapped once it is. -/
lemma cluster_write_mono (s : ℕ) (n : Node) :
    ∀ (g : List Node) (m : Node → Option ℕ), (m n).isSome →
      ((g.foldl (fun m2 x => Function.update m2 x (some s)) m) n).isSome
  | [], m, h => h
  | x :: g, m, h => by
    rw [List.foldl_cons]
    apply cluster_write_mono s n g
    by_cases hx : n = x
    · rw [hx, Function.update_same]
      rfl
    · rw [Function.update_noteq hx]
      exact h

/-- Writing one cluster maps every node of the cluster. -/
lemma cluster_write_cover (s : ℕ) (n : Node) :
    ∀ (g : List Node) (m : Node → Option ℕ), n ∈ g →
      ((g.foldl (fun m2 x => Function.update m2 x (some s)) m) n).isSome
  | [], _, h => absurd h (List.not_mem_nil n)
  | x :: g, m, h => by
    rw [List.foldl_cons]
    rcases List.mem_cons.mp h with rfl | h'
    · apply cluster_write_mono
      rw [Function.update_same]
      rfl
    · exact cluster_write_cover s n g _ h'

/-- Nodes of any cluster are mapped by the finished node_strand_map. -/
lemma nsmap_fold_cover (nd : NDMap) (n : Node) :
    ∀ (clusters : List (List Node)) (m : Node → Option ℕ),
      (∃ g ∈ clusters, n ∈ g) ∨ (m n).isSome →
      ((clusters.foldl
        (fun m g => g.foldl (fun m2 x => Function.update m2 x
          (some (resolve_strand g nd))) m) m) n).isSome
  | [], m, h => by
    rcases h with ⟨g, hg, _⟩ | h
    · cases hg
    · exact h
  | g :: clusters, m, h => by
    rw [List.foldl_cons]
    apply nsmap_fold_cover nd n clusters
    rcases h with ⟨g2, hg2, hng⟩ | h
    · rcases List.mem_cons.mp hg2 with rfl | hg2'
      · exact Or.inr (cluster_write_cover _ n g2 m hng)
      · exact Or.inl ⟨g2, hg2', hng⟩
    · exact Or.inr (cluster_write_mono _ n g m h)

/-- Values stored by the node_strand_map are strand constants. -/
lemma nsmap_fold_le_two (nd : NDMap) (n : Node) :
    ∀ (clusters : List (List Node)) (m : Node → Option ℕ),
      (∀ x s, m x = some s → s ≤ 2) →
      ∀ s, ((clusters.foldl
        (fun m g => g.foldl (fun m2 x => Function.update m2 x
          (some (resolve_strand g nd))) m) m) n) = some s → s ≤ 2
  | [], m, hm, s, h => hm n s h
  | g :: clusters, m, hm, s, h => by
    rw [List.foldl_cons] at h
    refine nsmap_fold_le_two nd n clusters _ ?_ s h
    intro x s2
    have hwrite : ∀ (g2 : List Node) (m2 : Node → Option ℕ),
        (∀ y s3, m2 y = some s3 → s3 ≤ 2) →
        ∀ y s3, ((g2.foldl (fun mm x2 => Function.update mm x2
          (some (resolve_strand g nd))) m2) y) = some s3 → s3 ≤ 2 := by
      intro g2
      induction g2 with
      | nil => intro m2 hm2 y s3 hy; exact hm2 y s3 hy
      | cons z g2 ih =>
        intro m2 hm2 y s3 hy
        rw [List.foldl_cons] at hy
        refine ih _ ?_ y s3 hy
        intro w s4 hw
        by_cases hwz : w = z
        · rw [hwz, Function.update_same] at hw
          cases hw
          exact resolve_strand_le_two g nd
        · rw [Function.update_noteq hwz] at hw
          exact hm2 w s4 hw
    exact hwrite g m hm x s2

/-- Bucket bookkeeping of the plain add_transcript fold used by step 4
and, via the mapped batch, step 6. -/
lemma add_fold_char (ts0 : List Transcript) (boundaries : List ℤ) :
    ∀ (l : List Transcript) (acc : TLists × NDMap) (out : TLists × NDMap),
      l.foldlM (fun (acc : TLists × NDMap) t =>
        add_transcript t (split_exons t boundaries) acc.1 acc.2) acc = some out →
      bucketIds out.1 = bucketIds acc.1 + idsOf l ∧
      ((∀ y ∈ l, variantOf ts0 y) → bucketsInv ts0 acc.1 → bucketsInv ts0 out.1)
  | [], acc, out, h => by
    simp only [List.foldlM_nil] at h
    cases h
    refine ⟨by simp [idsOf], fun _ hi => hi⟩
  | t :: l, acc, out, h => by
    rw [List.foldlM_cons] at h
    cases hstep : add_transcript t (split_exons t boundaries) acc.1 acc.2 with
    | none => rw [hstep] at h; exact Option.noConfusion h
    | some p =>
      rw [hstep] at h
      have ih := add_fold_char ts0 boundaries l p out h
      have hids := add_transcript_ids t (split_exons t boundaries) acc.1 acc.2 p hstep
      constructor
      · rw [ih.1, hids, idsOf_cons]
        simp only [← Multiset.singleton_add]
        abel
      · intro hv hi
        refine ih.2 (fun y hy => hv y (by simp [hy])) ?_
        exact add_transcript_inv ts0 t _ acc.1 acc.2 p hstep (hv t (by simp)) hi

/-- The plain add_transcript fold succeeds when every strand is in
range. -/
lemma add_fold_some (boundaries : List ℤ) :
    ∀ (l : List Transcript) (acc : TLists × NDMap),
      (∀ t ∈ l, t.strand < 3) →
      ∃ out, l.foldlM (fun (acc : TLists × NDMap) t =>
        add_transcript t (split_exons t boundaries) acc.1 acc.2) acc = some out
  | [], acc, _ => ⟨acc, by simp⟩
  | t :: l, acc, h => by
    rcases add_transcript_some t (split_exons t boundaries) acc.1 acc.2
      (h t (by simp)) with ⟨p, hp⟩
    rcases add_fold_some boundaries l p (fun x hx => h x (by simp [hx])) with ⟨out, hout⟩
    refine ⟨out, ?_⟩
    rw [List.foldlM_cons, hp]
    exact hout

/-- Embeds the step-6 loop body: accumulate mapped base pairs per strand
over the transcript nodes (an unmapped node raises KeyError in Python and
gives none here), reassign the strand when any mapped base pairs exist,
and add the transcript to its bucket. -/
def step56_process (boundaries : List ℤ) (node_strand_map : Node → Option ℕ)
    (acc : TLists × NDMap) (t : Transcript) : Option (TLists × NDMap) := do
  let bp ← (split_exons t boundaries).foldlM
    (fun (bp : ℤ × ℤ) n =>
      match node_strand_map n with
      | none => none
      | some s =>
        if s = POS_STRAND then some (bp.1 + (n.2 - n.1), bp.2)
        else if s = NEG_STRAND then some (bp.1, bp.2 + (n.2 - n.1))
        else if s = NO_STRAND then some bp
        else none)
    ((0, 0) : ℤ × ℤ)
  add_transcript
    (if bp.1 + bp.2 > 0 then
      (if bp.1 ≥ bp.2 then { t with strand := POS_STRAND }
       else { t with strand := NEG_STRAND })
     else t)
    (split_exons t boundaries) acc.1 acc.2

/-- Embeds steps 5 and 6 of partition_transcripts_by_strand: cluster the
sorted unresolved nodes, vote one strand per cluster against the NodeData
updated by step 4, then process every remaining transcript. -/
def step56 (boundaries : List ℤ) (batch : List Transcript) (unresolved_nodes : List Node)
    (lists : TLists) (node_data : NDMap) : Option (TLists × NDMap) :=
  batch.foldlM
    (step56_process boundaries
      (nsmap_fold node_data (cluster_nodes (unresolved_nodes.insertionSort nodeLe))))
    (lists, node_data)

/-- A successful step-6 iteration adds the transcript, with its strand
possibly reassigned, to a bucket. -/
lemma step56_process_char (boundaries : List ℤ) (nsm : Node → Option ℕ)
    (acc : TLists × NDMap) (t : Transcript) (out : TLists × NDMap)
    (h : step56_process boundaries nsm acc t = some out) :
    ∃ t2 : Transcript, t2.id = t.id ∧
      (t2 = t ∨ t2 = { t with strand := POS_STRAND } ∨
        t2 = { t with strand := NEG_STRAND }) ∧
      add_transcript t2 (split_exons t boundaries) acc.1 acc.2 = some out := by
  unfold step56_process at h
  cases hbp : (split_exons t boundaries).foldlM
      (fun (bp : ℤ × ℤ) n =>
        match nsm n with
        | none => none
        | some s =>
          if s = POS_STRAND then some (bp.1 + (n.2 - n.1), bp.2)
          else if s = NEG_STRAND then some (bp.1, bp.2 + (n.2 - n.1))
          else if s = NO_STRAND then some bp
          else none)
      ((0, 0) : ℤ × ℤ) with
  | none => rw [hbp] at h; exact Option.noConfusion h
  | some bp =>
    rw [hbp] at h
    simp only [Option.bind_eq_bind, Option.some_bind] at h
    by_cases h1 : bp.1 + bp.2 > 0
    · rw [if_pos h1] at h
      by_cases h2 : bp.1 ≥ bp.2
      · rw [if_pos h2] at h
        exact ⟨{ t with strand := POS_STRAND }, rfl, Or.inr (Or.inl rfl), h⟩
      · rw [if_neg h2] at h
        exact ⟨{ t with strand := NEG_STRAND }, rfl, Or.inr (Or.inr rfl), h⟩
    · rw [if_neg h1] at h
      exact ⟨t, rfl, Or.inl rfl, h⟩

/-- Bucket bookkeeping of the step-6 fold. -/
lemma step56_fold_char (ts0 : List Transcript) (boundaries : List ℤ)
    (nsm : Node → Option ℕ) :
    ∀ (batch : List Transcript) (acc out : TLists × NDMap),
      batch.foldlM (step56_process boundaries nsm) acc = some out →
      bucketIds out.1 = bucketIds acc.1 + idsOf batch ∧
      ((∀ y ∈ batch, variantOf ts0 y) → bucketsInv ts0 acc.1 → bucketsInv ts0 out.1)
  | [], acc, out, h => by
    simp only [List.foldlM_nil] at h
    cases h
    refine ⟨by simp [idsOf], fun _ hi => hi⟩
  | t :: batch, acc, out, h => by
    rw [List.foldlM_cons] at h
    cases hstep : step56_process boundaries nsm acc t with
    | none => rw [hstep] at h; exact Option.noConfusion h
    | some p =>
      rw [hstep] at h
      have ih := step56_fold_char ts0 boundaries nsm batch p out h
      rcases step56_process_char boundaries nsm acc t p hstep with ⟨t2, hid, hcases, hadd⟩
      have hids := add_transcript_ids t2 (split_exons t boundaries) acc.1 acc.2 p hadd
      constructor
      · rw [ih.1, hids, hid, idsOf_cons]
        simp only [← Multiset.singleton_add]
        abel
      · intro hv hi
        refine ih.2 (fun y hy => hv y (by simp [hy])) ?_
        have hvar : variantOf ts0 t2 := by
          rcases hcases with he | he | he
          · rw [he]; exact hv t (by simp)
          · rw [he]; exact variantOf_update ts0 t POS_STRAND (hv t (by simp))
          · rw [he]; exact variantOf_update ts0 t NEG_STRAND (hv t (by simp))
        exact add_transcript_inv ts0 t2 _ acc.1 acc.2 p hadd hvar hi

/-- The step-6 iteration succeeds when every node of the transcript is
mapped to a strand constant and the transcript strand is in range. -/
lemma step56_process_some (boundaries : List ℤ) (nsm : Node → Option ℕ)
    (acc : TLists × NDMap) (t : Transcript)
    (hcov : ∀ n ∈ split_exons t boundaries, ∃ s, nsm n = some s ∧ s ≤ 2)
    (hstrand : t.strand < 3) :
    ∃ out, step56_process boundaries nsm acc t = some out := by
  have hbp : ∀ (nodes : List Node), (∀ n ∈ nodes, ∃ s, nsm n = some s ∧ s ≤ 2) →
      ∀ (bp0 : ℤ × ℤ), ∃ bp, nodes.foldlM
        (fun (bp : ℤ × ℤ) n =>
          match nsm n with
          | none => none
          | some s =>
            if s = POS_STRAND then some (bp.1 + (n.2 - n.1), bp.2)
            else if s = NEG_STRAND then some (bp.1, bp.2 + (n.2 - n.1))
            else if s = NO_STRAND then some bp
            else none)
        bp0 = some bp := by
    intro nodes
    induction nodes with
    | nil =>
      intro _ bp0
      exact ⟨bp0, by simp⟩
    | cons n nodes ih =>
      intro hc bp0
      rcases hc n (by simp) with ⟨s, hs, hs2⟩
      have hstep : ∃ bp1,
          (match nsm n with
          | none => none
          | some s =>
            if s = POS_STRAND then some (bp0.1 + (n.2 - n.1), bp0.2)
            else if s = NEG_STRAND then some (bp0.1, bp0.2 + (n.2 - n.1))
            else if s = NO_STRAND then some bp0
            else none) = some bp1 := by
        rw [hs]
        rcases (by omega : s = 0 ∨ s = 1 ∨ s = 2) with h0 | h0 | h0 <;>
          simp [h0, POS_STRAND, NEG_STRAND, NO_STRAND]
      rcases hstep with ⟨bp1, hbp1⟩
      rcases ih (fun x hx => hc x (by simp [hx])) bp1 with ⟨bp, hbp⟩
      refine ⟨bp, ?_⟩
      rw [List.foldlM_cons, hbp1]
      exact hbp
  rcases hbp (split_exons t boundaries) hcov ((0, 0) : ℤ × ℤ) with ⟨bp, hbpeq⟩
  have hadd : ∃ out, add_transcript
      (if bp.1 + bp.2 > 0 then
        (if bp.1 ≥ bp.2 then { t with strand := POS_STRAND }
         else { t with strand := NEG_STRAND })
       else t)
      (split_exons t boundaries) acc.1 acc.2 = some out := by
    apply add_transcript_some
    by_cases h1 : bp.1 + bp.2 > 0
    · rw [if_pos h1]
      by_cases h2 : bp.1 ≥ bp.2
      · rw [if_pos h2]
        simp [POS_STRAND]
      · rw [if_neg h2]
        simp [NEG_STRAND]
    · rw [if_neg h1]
      exact hstrand
  rcases hadd with ⟨out, hout⟩
  refine ⟨out, ?_⟩
  unfold step56_process
  rw [hbpeq]
  simp only [Option.bind_eq_bind, Option.some_bind]
  exact hout

/-- The step-6 fold succeeds under the same conditions for every batch
member. -/
lemma step56_fold_some (boundaries : List ℤ) (nsm : Node → Option ℕ) :
    ∀ (batch : List Transcript) (acc : TLists × NDMap),
      (∀ t ∈ batch, (∀ n ∈ split_exons t boundaries, ∃ s, nsm n = some s ∧ s ≤ 2) ∧
        t.strand < 3) →
      ∃ out, batch.foldlM (step56_process boundaries nsm) acc = some out
  | [], acc, _ => ⟨acc, by simp⟩
  | t :: batch, acc, h => by
    rcases step56_process_some boundaries nsm acc t (h t (by simp)).1 (h t (by simp)).2
      with ⟨p, hp⟩
    rcases step56_fold_some boundaries nsm batch p (fun x hx => h x (by simp [hx]))
      with ⟨out, hout⟩
    refine ⟨out, ?_⟩
    rw [List.foldlM_cons, hp]
    exact hout

/-- Splitting ignores the strand field. -/
lemma split_exons_strand (t : Transcript) (s : ℕ) (boundaries : List ℤ) :
    split_exons { t with strand := s } boundaries = split_exons t boundaries := rfl

/-- The two strand filters of step 4 partition the identifier multiset. -/
lemma idsOf_filter_split (l : List Transcript) :
    idsOf (l.filter fun t => decide (t.strand ≠ NO_STRAND)) +
      idsOf (l.filter fun t => decide (t.strand = NO_STRAND)) = idsOf l := by
  induction l with
  | nil => simp [idsOf]
  | cons t l ih =>
    by_cases h : t.strand = NO_STRAND
    · have h1 : (decide (t.strand ≠ NO_STRAND)) = false := by simpa using h
      have h2 : (decide (t.strand = NO_STRAND)) = true := by simpa using h
      rw [List.filter_cons, List.filter_cons, h1, h2]
      simp only [Bool.false_eq_true, if_false, if_true]
      rw [idsOf_cons, idsOf_cons, ← ih]
      simp only [← Multiset.singleton_add]
      abel
    · have h1 : (decide (t.strand ≠ NO_STRAND)) = true := by simpa using h
      have h2 : (decide (t.strand = NO_STRAND)) = false := by simpa using h
      rw [List.filter_cons, List.filter_cons, h1, h2]
      simp only [Bool.false_eq_true, if_false, if_true]
      rw [idsOf_cons, idsOf_cons, ← ih]
      simp only [← Multiset.singleton_add]
      abel

/-- Rewriting strands preserves the identifier multiset. -/
lemma idsOf_map_strandf (l : List Transcript) (f : Transcript → ℕ) :
    idsOf (l.map fun t => { t with strand := f t }) = idsOf l := by
  unfold idsOf
  rw [List.map_map]
  rfl

/-- The unresolved-node fold keeps earlier members. -/
lemma unodes_fold_mono (boundaries : List ℤ) :
    ∀ (l : List Transcript) (acc : List Node) (n : Node), n ∈ acc →
      n ∈ l.foldl (fun a t => nodesUnion a (split_exons t boundaries)) acc
  | [], _, _, h => h
  | t :: l, acc, n, h => by
    rw [List.foldl_cons]
    exact unodes_fold_mono boundaries l _ n
      ((mem_nodesUnion (split_exons t boundaries) acc n).mpr (Or.inl h))

/-- The unresolved-node fold covers the nodes of every member. -/
lemma unodes_fold_cover (boundaries : List ℤ) :
    ∀ (l : List Transcript) (acc : List Node) (t : Transcript), t ∈ l →
      ∀ n ∈ split_exons t boundaries,
        n ∈ l.foldl (fun a t => nodesUnion a (split_exons t boundaries)) acc
  | [], _, _, ht, _, _ => absurd ht (List.not_mem_nil _)
  | t0 :: l, acc, t, ht, n, hn => by
    rw [List.foldl_cons]
    rcases List.mem_cons.mp ht with rfl | ht'
    · exact unodes_fold_mono boundaries l _ n
        ((mem_nodesUnion (split_exons t boundaries) acc n).mpr (Or.inr hn))
    · exact unodes_fold_cover boundaries l _ t ht' n hn

/-- Closed form of step 4 through the loop characterization. -/
lemma step4_run (boundaries : List ℤ) (batch : List Transcript) (lists : TLists)
    (nd : NDMap) :
    step4 boundaries batch lists nd =
      (((batch.map fun t =>
          { t with strand := resolve_strand (split_exons t boundaries) nd }).filter
          (fun t => decide (t.strand ≠ NO_STRAND))).foldlM
        (fun (acc : TLists × NDMap) t =>
          add_transcript t (split_exons t boundaries) acc.1 acc.2)
        (lists, nd)).bind fun p =>
          some (p.1, p.2,
            (batch.map fun t =>
              { t with strand := resolve_strand (split_exons t boundaries) nd }).filter
              (fun t => decide (t.strand = NO_STRAND)),
            (batch.filter fun t =>
              decide (resolve_strand (split_exons t boundaries) nd = NO_STRAND)).foldl
              (fun a t => nodesUnion a (split_exons t boundaries)) ([] : List Node)) := by
  simp only [step4]
  rw [step4_fold_char boundaries nd batch [] [] []]
  simp only [List.nil_append]
  rfl

/-- Step 4 always succeeds: the strands it assigns are strand constants. -/
lemma step4_some (boundaries : List ℤ) (batch : List Transcript) (lists : TLists)
    (nd : NDMap) : ∃ q, step4 boundaries batch lists nd = some q := by
  have hmem : ∀ t ∈ (batch.map fun t =>
      { t with strand := resolve_strand (split_exons t boundaries) nd }).filter
      (fun t => decide (t.strand ≠ NO_STRAND)), t.strand < 3 := by
    intro t ht
    rcases List.mem_map.mp (List.mem_filter.mp ht).1 with ⟨x, _, rfl⟩
    have hpr : ({ x with strand := resolve_strand (split_exons x boundaries) nd } :
        Transcript).strand = resolve_strand (split_exons x boundaries) nd := rfl
    rw [hpr]
    have := resolve_strand_le_two (split_exons x boundaries) nd
    omega
  rcases add_fold_some boundaries
      ((batch.map fun t =>
        { t with strand := resolve_strand (split_exons t boundaries) nd }).filter
        (fun t => decide (t.strand ≠ NO_STRAND))) (lists, nd) hmem with ⟨p, hp⟩
  refine ⟨(p.1, p.2,
    (batch.map fun t =>
      { t with strand := resolve_strand (split_exons t boundaries) nd }).filter
      (fun t => decide (t.strand = NO_STRAND)),
    (batch.filter fun t =>
      decide (resolve_strand (split_exons t boundaries) nd = NO_STRAND)).foldl
      (fun a t => nodesUnion a (split_exons t boundaries)) ([] : List Node)), ?_⟩
  rw [step4_run, hp]
  rfl

/-- Bookkeeping of a successful step 4: identifiers are conserved between
buckets and the still-unresolved batch, invariants are preserved, and the
still-unresolved transcripts keep strand Unknown with all their split
nodes recorded as unresolved nodes. -/
lemma step4_char (boundaries : List ℤ) (ts0 : List Transcript) (batch : List Transcript)
    (lists : TLists) (nd : NDMap) (q : TLists × NDMap × List Transcript × List Node)
    (h : step4 boundaries batch lists nd = some q)
    (hbatch : unresolvedInv ts0 batch) (hinv : bucketsInv ts0 lists) :
    bucketIds q.1 + idsOf q.2.2.1 = bucketIds lists + idsOf batch ∧
    bucketsInv ts0 q.1 ∧
    (∀ x ∈ q.2.2.1, x.strand = 2 ∧ variantOf ts0 x) ∧
    (∀ x ∈ q.2.2.1, ∀ n ∈ split_exons x boundaries, n ∈ q.2.2.2) := by
  rw [step4_run] at h
  cases hfold : ((batch.map fun t =>
      { t with strand := resolve_strand (split_exons t boundaries) nd }).filter
      (fun t => decide (t.strand ≠ NO_STRAND))).foldlM
      (fun (acc : TLists × NDMap) t =>
        add_transcript t (split_exons t boundaries) acc.1 acc.2) (lists, nd) with
  | none => rw [hfold] at h; exact Option.noConfusion h
  | some p =>
    rw [hfold] at h
    have hq := Option.some.inj h
    subst hq
    have hvar : ∀ y ∈ (batch.map fun t =>
        { t with strand := resolve_strand (split_exons t boundaries) nd }),
        variantOf ts0 y := by
      intro y hy
      rcases List.mem_map.mp hy with ⟨x0, hx0, rfl⟩
      rcases hbatch x0 hx0 with ⟨hx0m, hx0r, _⟩
      exact variantOf_update ts0 x0 _ (variantOf_self ts0 x0 hx0m hx0r)
    have hfc := add_fold_char ts0 boundaries _ (lists, nd) p hfold
    refine ⟨?_, ?_, ?_, ?_⟩
    · rw [hfc.1, add_assoc, idsOf_filter_split, idsOf_map_strandf]
    · exact hfc.2 (fun y hy => hvar y (List.mem_filter.mp hy).1) hinv
    · intro x hx
      rcases List.mem_filter.mp hx with ⟨hxm, hx2⟩
      exact ⟨of_decide_eq_true hx2, hvar x hxm⟩
    · intro x hx n hn
      rcases List.mem_filter.mp hx with ⟨hxm, hx2⟩
      rcases List.mem_map.mp hxm with ⟨x0, hx0, rfl⟩
      have h2 : resolve_strand (split_exons x0 boundaries) nd = NO_STRAND :=
        of_decide_eq_true hx2
      exact unodes_fold_cover boundaries _ [] x0
        (List.mem_filter.mpr ⟨hx0, decide_eq_true h2⟩) n hn

/-- Embeds partition_transcripts_by_strand: classify every transcript
(references label nodes, stranded transcripts enter buckets with score,
unknowns are deferred); if any were deferred, run the step-4 vote; if any
remain, run the cluster fallback of steps 5 and 6; return the buckets and
the reference lists. -/
def partition_transcripts_by_strand (transcripts : List Transcript) :
    Option (TLists × RefLists) := do
  let st1 ← transcripts.foldlM
    (classify_transcript (find_exon_boundaries transcripts))
    ⟨fun _ => NodeData.fresh, ⟨[], [], []⟩, ⟨[], []⟩, []⟩
  let q ← if st1.unresolved.length > 0 then
      step4 (find_exon_boundaries transcripts) st1.unresolved st1.lists st1.node_data
    else
      pure (st1.lists, st1.node_data, [], [])
  let p ← if q.2.2.1.length > 0 then
      step56 (find_exon_boundaries transcripts) q.2.2.1 q.2.2.2 q.1 q.2.1
    else
      pure (q.1, q.2.1)
  pure (p.1, st1.refs)

/-- The resolver succeeds whenever every input strand is a strand
constant and every reference transcript is stranded. -/
lemma partition_some (ts : List Transcript)
    (hwf : ∀ t ∈ ts, t.strand < 3 ∧ (t.is_ref = true → t.strand < 2)) :
    ∃ r, partition_transcripts_by_strand ts = some r := by
  rcases classify_fold_some (find_exon_boundaries ts) ts
      ⟨fun _ => NodeData.fresh, ⟨[], [], []⟩, ⟨[], []⟩, []⟩ hwf with ⟨st1, h1⟩
  have hcls := classify_fold_char (find_exon_boundaries ts) ts ts
      ⟨fun _ => NodeData.fresh, ⟨[], [], []⟩, ⟨[], []⟩, []⟩ st1 h1 (fun t ht => ht)
  have hEmpty : bucketsInv ts (⟨[], [], []⟩ : TLists) :=
    ⟨fun x hx => absurd hx (List.not_mem_nil x),
      fun x hx => absurd hx (List.not_mem_nil x),
      fun x hx => absurd hx (List.not_mem_nil x)⟩
  have hUn : unresolvedInv ts ([] : List Transcript) :=
    fun x hx => absurd hx (List.not_mem_nil x)
  have hst1 := hcls.1 ⟨hEmpty, hUn⟩
  by_cases hlen : st1.unresolved.length > 0
  · rcases step4_some (find_exon_boundaries ts) st1.unresolved st1.lists st1.node_data
      with ⟨q, h4⟩
    have h4c := step4_char (find_exon_boundaries ts) ts st1.unresolved st1.lists
      st1.node_data q h4 hst1.2 hst1.1
    by_cases hlen2 : q.2.2.1.length > 0
    · have hcov : ∀ t ∈ q.2.2.1,
          (∀ n ∈ split_exons t (find_exon_boundaries ts), ∃ s,
            nsmap_fold q.2.1 (cluster_nodes ((q.2.2.2).insertionSort nodeLe)) n =
              some s ∧ s ≤ 2) ∧ t.strand < 3 := by
        intro t ht
        refine ⟨?_, by have := (h4c.2.2.1 t ht).1; omega⟩
        intro n hn
        have hnu : n ∈ q.2.2.2 := h4c.2.2.2 t ht n hn
        have hns : n ∈ (q.2.2.2).insertionSort nodeLe :=
          (List.Perm.mem_iff (List.perm_insertionSort nodeLe q.2.2.2)).mpr hnu
        rcases cluster_nodes_cover _ n hns with ⟨g, hg, hng⟩
        have hsome := nsmap_fold_cover q.2.1 n
          (cluster_nodes ((q.2.2.2).insertionSort nodeLe)) (fun _ => none)
          (Or.inl ⟨g, hg, hng⟩)
        rcases Option.isSome_iff_exists.mp hsome with ⟨s, hs⟩
        refine ⟨s, hs, ?_⟩
        exact nsmap_fold_le_two q.2.1 n
          (cluster_nodes ((q.2.2.2).insertionSort nodeLe)) (fun _ => none)
          (fun x s2 hx => Option.noConfusion hx) s hs
      rcases step56_fold_some (find_exon_boundaries ts)
          (nsmap_fold q.2.1 (cluster_nodes ((q.2.2.2).insertionSort nodeLe)))
          q.2.2.1 (q.1, q.2.1) hcov with ⟨op, h56⟩
      have h56' : step56 (find_exon_boundaries ts) q.2.2.1 q.2.2.2 q.1 q.2.1 =
          some op := h56
      refine ⟨(op.1, st1.refs), ?_⟩
      simp only [partition_transcripts_by_strand, Option.bind_eq_bind]
      rw [h1]
      simp only [Option.some_bind]
      rw [if_pos hlen, h4]
      simp only [Option.some_bind]
      rw [if_pos hlen2, h56']
      simp only [Option.some_bind]
      rfl
    · refine ⟨(q.1, st1.refs), ?_⟩
      simp only [partition_transcripts_by_strand, Option.bind_eq_bind]
      rw [h1]
      simp only [Option.some_bind]
      rw [if_pos hlen, h4]
      simp only [Option.some_bind]
      rw [if_neg hlen2]
      simp only [Option.pure_def, Option.some_bind]
  · refine ⟨(st1.lists, st1.refs), ?_⟩
    simp only [partition_transcripts_by_strand, Option.bind_eq_bind]
    rw [h1]
    simp only [Option.some_bind]
    rw [if_neg hlen]
    simp only [Option.pure_def, Option.some_bind]
    rw [if_neg (by simp :
      ¬((st1.lists, st1.node_data, ([] : List Transcript), ([] : List Node)).2.2.1.length > 0))]

/-- Whenever the resolver succeeds, the bucket identifier multiset equals
the non-reference input identifiers and every bucket member carries the
bucket strand while being an input with only its strand rewritten. -/
lemma partition_inv (ts : List Transcript) (r : TLists × RefLists)
    (h : partition_transcripts_by_strand ts = some r) :
    bucketIds r.1 = idsOf (ts.filter fun t => !t.is_ref) ∧ bucketsInv ts r.1 := by
  simp only [partition_transcripts_by_strand, Option.bind_eq_bind] at h
  cases h1 : ts.foldlM (classify_transcript (find_exon_boundaries ts))
      ⟨fun _ => NodeData.fresh, ⟨[], [], []⟩, ⟨[], []⟩, []⟩ with
  | none => rw [h1] at h; exact Option.noConfusion h
  | some st1 =>
    rw [h1] at h
    simp only [Option.some_bind] at h
    have hcls := classify_fold_char (find_exon_boundaries ts) ts ts
      ⟨fun _ => NodeData.fresh, ⟨[], [], []⟩, ⟨[], []⟩, []⟩ st1 h1 (fun t ht => ht)
    have hEmpty : bucketsInv ts (⟨[], [], []⟩ : TLists) :=
      ⟨fun x hx => absurd hx (List.not_mem_nil x),
        fun x hx => absurd hx (List.not_mem_nil x),
        fun x hx => absurd hx (List.not_mem_nil x)⟩
    have hUn : unresolvedInv ts ([] : List Transcript) :=
      fun x hx => absurd hx (List.not_mem_nil x)
    have hst1 := hcls.1 ⟨hEmpty, hUn⟩
    have hids1 : bucketIds st1.lists + idsOf st1.unresolved =
        idsOf (ts.filter fun t => !t.is_ref) := by
      rw [hcls.2]
      have e1 : bucketIds (⟨fun _ => NodeData.fresh, ⟨[], [], []⟩, ⟨[], []⟩,
          ([] : List Transcript)⟩ : P1State).lists = 0 := by
        simp [bucketIds]
      have e2 : idsOf (⟨fun _ => NodeData.fresh, ⟨[], [], []⟩, ⟨[], []⟩,
          ([] : List Transcript)⟩ : P1State).unresolved = 0 := by
        simp [idsOf]
      rw [e1, e2, zero_add, zero_add]
    by_cases hlen : st1.unresolved.length > 0
    · rw [if_pos hlen] at h
      cases h4 : step4 (find_exon_boundaries ts) st1.unresolved st1.lists
          st1.node_data with
      | none => rw [h4] at h; exact Option.noConfusion h
      | some q =>
        rw [h4] at h
        simp only [Option.some_bind] at h
        have h4c := step4_char (find_exon_boundaries ts) ts st1.unresolved st1.lists
          st1.node_data q h4 hst1.2 hst1.1
        by_cases hlen2 : q.2.2.1.length > 0
        · rw [if_pos hlen2] at h
          cases h56 : step56 (find_exon_boundaries ts) q.2.2.1 q.2.2.2 q.1 q.2.1 with
          | none => rw [h56] at h; exact Option.noConfusion h
          | some op =>
            rw [h56] at h
            simp only [Option.some_bind, Option.pure_def] at h
            have hr := Option.some.inj h
            have h56c := step56_fold_char ts (find_exon_boundaries ts)
              (nsmap_fold q.2.1 (cluster_nodes ((q.2.2.2).insertionSort nodeLe)))
              q.2.2.1 (q.1, q.2.1) op h56
            have hids : bucketIds op.1 = idsOf (ts.filter fun t => !t.is_ref) := by
              rw [h56c.1]
              have : bucketIds (q.1, q.2.1).1 + idsOf q.2.2.1 =
                  bucketIds st1.lists + idsOf st1.unresolved := h4c.1
              rw [this, hids1]
            have hinv : bucketsInv ts op.1 :=
              h56c.2 (fun y hy => (h4c.2.2.1 y hy).2) h4c.2.1
            rw [← hr]
            exact ⟨hids, hinv⟩
        · rw [if_neg hlen2] at h
          simp only [Option.pure_def, Option.some_bind] at h
          have hr := Option.some.inj h
          have hstill : q.2.2.1 = [] := by
            rcases List.length_eq_zero.mp (by omega : q.2.2.1.length = 0) with he
            exact he
          have hids : bucketIds q.1 = idsOf (ts.filter fun t => !t.is_ref) := by
            have hnil : idsOf ([] : List Transcript) = 0 := by simp [idsOf]
            have h4ids := h4c.1
            rw [hstill, hnil, add_zero] at h4ids
            rw [h4ids, hids1]
          rw [← hr]
          exact ⟨hids, h4c.2.1⟩
    · rw [if_neg hlen] at h
      simp only [Option.pure_def, Option.some_bind] at h
      rw [if_neg (by simp :
        ¬((st1.lists, st1.node_data, ([] : List Transcript), ([] : List Node)).2.2.1.length
          > 0))] at h
      have hr := Option.some.inj h
      have hunil : st1.unresolved = [] :=
        List.length_eq_zero.mp (by omega : st1.unresolved.length = 0)
      have hids : bucketIds st1.lists = idsOf (ts.filter fun t => !t.is_ref) := by
        have hnil : idsOf ([] : List Transcript) = 0 := by simp [idsOf]
        rw [hunil, hnil, add_zero] at hids1
        exact hids1
      rw [← hr]
      exact ⟨hids, hst1.1⟩

/-- C1 (corrected): the unconditional claim fails — see the
counterexample — but under the well-formedness the caller guarantees
(every strand is one of the three constants and references are stranded),
partition_transcripts_by_strand completes and the multiset of bucket
transcript identifiers equals the multiset of non-reference input
identifiers: every non-reference input lands in exactly one of the three
buckets, exactly once. -/
theorem C1_partition_totality (ts : List Transcript)
    (hwf : ∀ t ∈ ts, t.strand < 3 ∧ (t.is_ref = true → t.strand < 2)) :
    ∃ r, partition_transcripts_by_strand ts = some r ∧
      bucketIds r.1 = idsOf (ts.filter fun t => !t.is_ref) := by
  rcases partition_some ts hwf with ⟨r, hr⟩
  exact ⟨r, hr, (partition_inv ts r hr).1⟩

/-- C1 witness: the amended theorem applied to a concrete stranded
non-reference transcript. -/
theorem C1_partition_totality_witness :
    (∀ t ∈ ([⟨5, 0, [], 0, false⟩] : List Transcript),
      t.strand < 3 ∧ (t.is_ref = true → t.strand < 2)) ∧
    ∃ r, partition_transcripts_by_strand [⟨5, 0, [], 0, false⟩] = some r ∧
      bucketIds r.1 =
        idsOf (([⟨5, 0, [], 0, false⟩] : List Transcript).filter fun t => !t.is_ref) :=
  ⟨by decide, C1_partition_totality [⟨5, 0, [], 0, false⟩] (by decide)⟩

/-- C1 counterexample: a reference transcript with unknown strand makes
the source index the two-element reference list at position 2
(strand_ref_transcripts of the source has entries for the two concrete
strands only), an IndexError, so the resolver does not complete on every
input. -/
theorem C1_partition_counterexample :
    partition_transcripts_by_strand [⟨0, 2, [], 0, true⟩] = none := rfl

/-- C10: whenever the resolver completes, every bucket member carries
exactly the strand of its bucket (Unknown-bucket members keep strand
Unknown) and is a non-reference input transcript with only its strand
field rewritten — identifier, exons, score and the reference flag are
untouched. -/
theorem C10_strand_frame (ts : List Transcript) (r : TLists × RefLists)
    (h : partition_transcripts_by_strand ts = some r) :
    (∀ x ∈ r.1.pos, x.strand = POS_STRAND ∧
      ∃ t ∈ ts, t.is_ref = false ∧ x = { t with strand := x.strand }) ∧
    (∀ x ∈ r.1.neg, x.strand = NEG_STRAND ∧
      ∃ t ∈ ts, t.is_ref = false ∧ x = { t with strand := x.strand }) ∧
    (∀ x ∈ r.1.unk, x.strand = NO_STRAND ∧
      ∃ t ∈ ts, t.is_ref = false ∧ x = { t with strand := x.strand }) := by
  have hi := (partition_inv ts r h).2
  exact ⟨fun x hx => ⟨(hi.1 x hx).1, (hi.1 x hx).2⟩,
    fun x hx => ⟨(hi.2.1 x hx).1, (hi.2.1 x hx).2⟩,
    fun x hx => ⟨(hi.2.2 x hx).1, (hi.2.2 x hx).2⟩⟩

/-- C10 witness: the theorem applied to a concrete run whose result is
computed by reduction. -/
theorem C10_strand_frame_witness :
    (∀ x ∈ ((⟨[⟨4, 0, [], 0, false⟩], [], []⟩, ⟨[], []⟩) : TLists × RefLists).1.pos,
      x.strand = POS_STRAND ∧
      ∃ t ∈ ([⟨4, 0, [], 0, false⟩] : List Transcript), t.is_ref = false ∧
        x = { t with strand := x.strand }) ∧
    (∀ x ∈ ((⟨[⟨4, 0, [], 0, false⟩], [], []⟩, ⟨[], []⟩) : TLists × RefLists).1.neg,
      x.strand = NEG_STRAND ∧
      ∃ t ∈ ([⟨4, 0, [], 0, false⟩] : List Transcript), t.is_ref = false ∧
        x = { t with strand := x.strand }) ∧
    (∀ x ∈ ((⟨[⟨4, 0, [], 0, false⟩], [], []⟩, ⟨[], []⟩) : TLists × RefLists).1.unk,
      x.strand = NO_STRAND ∧
      ∃ t ∈ ([⟨4, 0, [], 0, false⟩] : List Transcript), t.is_ref = false ∧
        x = { t with strand := x.strand }) :=
  C10_strand_frame [⟨4, 0, [], 0, false⟩]
    (⟨[⟨4, 0, [], 0, false⟩], [], []⟩, ⟨[], []⟩) rfl
